import Mathlib

/-!
c-summarizer: the resizable chained hash table of `hash.c` and its caller

A shallow embedding of `src/hash.c` and the properties of its public operations
`ht_create`, `ht_insert`, `ht_delete` and `ht_get`, followed by the word counter
of `src/main.c` that uses the table (`is_stop_word`, `index_word`, `count_words`).

Modelling conventions.

* A C string is the sequence of `char` values before its terminating NUL; a key
  is such a sequence (`Key`), and `strcmp(a, b) == 0` is equality of sequences.
* A chain (`tableentry_t *`, linked through `next`) is the list of its entries,
  head first.  The bucket array `tab` is the list of its chains; its length is
  the `size` field, which the source writes only in `ht_create`, together with
  the allocation of the array.
* A value is the content the `void *` points to, as read through the table's
  `type`; the copies made by `strdup` and `intdup` are the content itself, and
  the caller's `v` is storage of its own, not a pointer into the table.
  Allocation never fails.
* `size_t` counters are natural numbers, and the comparisons against
  `size * 0.75` and `size * 0.25` are exact: `x > size * 0.75` is
  `4 * x > 3 * size` and `x < size * 0.25` is `4 * x < size`.  That is what the
  source computes while `size` and `load` stay below `2 ^ 50`, beyond what an
  allocated bucket array and its entries reach; the wrap of `size * 2` and of
  `++load` at `2 ^ 64` and the rounding of `double` above `2 ^ 53` are outside
  the model.  The wrap of `--load` at `load = 0` is kept.
* Undefined behaviour (division by zero in `hash(k) % size`, a read through a
  null or an unassigned pointer) is the outcome `undefined`.
* `ht_insert` and `resize` call each other; the embedding bounds the depth of
  that recursion by a fuel argument and reports exhaustion as `outOfFuel`,
  an outcome different from every outcome of the source.
-/

namespace CSummarizer

/-- The outcome of running a piece of the source. -/
inductive Outcome (α : Type) where
  | ok (a : α)
  | undefined
  | outOfFuel
deriving DecidableEq, Repr

/-- The value kinds of `hash.h`. -/
inductive datatype_t where
  | STRING
  | INTEGER
deriving DecidableEq, Repr

/-- A key: the `char` values of a C string, before the terminating NUL. -/
abbrev Key := List Int

/-- An entry of a chain; the `next` link is the tail of the list holding it. -/
structure tableentry_t (V : Type) where
  key : Key
  val : V
deriving DecidableEq, Repr

/-- The table: `tab` has `size` chains. -/
structure hashtable_t (V : Type) where
  type : datatype_t
  load : Nat
  tab : List (List (tableentry_t V))
deriving DecidableEq, Repr

variable {V : Type}

/-- The `size` field: the number of buckets of `tab`. -/
def hashtable_t.size (ht : hashtable_t V) : Nat := ht.tab.length

/-- The largest `size_t`. -/
def SIZE_MAX : Nat := 2 ^ 64 - 1

/-- The loop body of `hash`: `hashval = *s + 31 * hashval` on `unsigned`. -/
def hash_step (hashval : Nat) (c : Int) : Nat :=
  ((c + 31 * (hashval : Int)) % (2 ^ 32 : Int)).toNat

/-- Embeds `hash`. -/
def hash (s : Key) : Nat := s.foldl hash_step 0

/-- Embeds `ht_create`: `size` empty chains, load 0. -/
def ht_create (size : Nat) (type : datatype_t) : hashtable_t V :=
  { type := type, load := 0, tab := List.replicate size [] }

/-- The chain walk of `lookup`: the first entry whose key equals `k`. -/
def lookup_chain (k : Key) : List (tableentry_t V) → Option (tableentry_t V)
  | [] => none
  | te :: next => if te.key = k then some te else lookup_chain k next

/-- Embeds `lookup`. -/
def lookup (ht : hashtable_t V) (k : Key) : Outcome (Option (tableentry_t V)) :=
  if ht.size = 0 then Outcome.undefined
  else Outcome.ok (lookup_chain k (ht.tab.getD (hash k % ht.size) []))

/-- Embeds `ht_get`. -/
def ht_get (ht : hashtable_t V) (k : Key) : Outcome (Option V) :=
  match lookup ht k with
  | Outcome.ok (some te) => Outcome.ok (some te.val)
  | Outcome.ok none => Outcome.ok none
  | Outcome.undefined => Outcome.undefined
  | Outcome.outOfFuel => Outcome.outOfFuel

/-- The value copy made for a table of kind `type` (`strdup` or `intdup`). -/
def dupval (type : datatype_t) (v : V) : Option V :=
  match type with
  | datatype_t.STRING => some v
  | datatype_t.INTEGER => some v

/-- Embeds `alloc_te`. -/
def alloc_te (k : Key) (v : V) (type : datatype_t) : Option (tableentry_t V) :=
  match dupval type v with
  | some w => some { key := k, val := w }
  | none => none

/-- Embeds `insert_te`: the new entry becomes the head of its bucket. -/
def insert_te (ht : hashtable_t V) (k : Key) (v : V) : Outcome (Int × hashtable_t V) :=
  match alloc_te k v ht.type with
  | none => Outcome.ok (-1, ht)
  | some te =>
    if ht.size = 0 then Outcome.undefined
    else
      let hashval := hash k % ht.size
      Outcome.ok (0, { ht with tab := ht.tab.set hashval (te :: ht.tab.getD hashval []) })

/-- The `for` loop of `delete_te`.  `visited` holds the entries already passed,
so that `prev` is its last element; `assigned` tells whether `prev` has been
written.  The result is the chain after unlinking, or `none` for not found. -/
def delete_te_loop (k : Key) :
    Bool → List (tableentry_t V) → List (tableentry_t V) → Outcome (Option (List (tableentry_t V)))
  | _, _, [] => Outcome.ok none
  | assigned, visited, te :: next =>
    if te.key = k then
      (if assigned then Outcome.ok (some (visited ++ next)) else Outcome.undefined)
    else delete_te_loop k true (visited ++ [te]) next

/-- Embeds `delete_te`. -/
def delete_te (ht : hashtable_t V) (k : Key) : Outcome (Int × hashtable_t V) :=
  if ht.size = 0 then Outcome.undefined
  else
    let hashval := hash k % ht.size
    match ht.tab.getD hashval [] with
    | [] => Outcome.undefined
    | te :: next =>
      if te.key = k then Outcome.ok (0, { ht with tab := ht.tab.set hashval next })
      else
        match delete_te_loop k false [] (te :: next) with
        | Outcome.ok (some chain) => Outcome.ok (0, { ht with tab := ht.tab.set hashval chain })
        | Outcome.ok none => Outcome.ok (-1, ht)
        | Outcome.undefined => Outcome.undefined
        | Outcome.outOfFuel => Outcome.outOfFuel

/-- The replacement of `te->val` in the entry that `lookup` returned. -/
def replace_val (k : Key) (w : V) : List (tableentry_t V) → List (tableentry_t V)
  | [] => []
  | te :: next => if te.key = k then { te with val := w } :: next else te :: replace_val k w next

/-- The rehash loops of `resize`: every entry of the old table, buckets in
ascending order and chains head first, goes through `ins` into the new table.
`none` stands for the `return -1` that leaves the old table in place. -/
def rehash (ins : hashtable_t V → Key → V → Outcome (Int × hashtable_t V)) :
    List (tableentry_t V) → hashtable_t V → Outcome (Option (hashtable_t V))
  | [], nht => Outcome.ok (some nht)
  | te :: rest, nht =>
    match ins nht te.key te.val with
    | Outcome.ok (r, nht1) => if r < 0 then Outcome.ok none else rehash ins rest nht1
    | Outcome.undefined => Outcome.undefined
    | Outcome.outOfFuel => Outcome.outOfFuel

/-- Embeds `resize`, with `ins` the `ht_insert` it calls. -/
def resize (ins : hashtable_t V → Key → V → Outcome (Int × hashtable_t V))
    (ht : hashtable_t V) (size : Nat) : Outcome (Int × hashtable_t V) :=
  match rehash ins ht.tab.flatten (ht_create size ht.type) with
  | Outcome.ok (some nht) => Outcome.ok (0, nht)
  | Outcome.ok none => Outcome.ok (-1, ht)
  | Outcome.undefined => Outcome.undefined
  | Outcome.outOfFuel => Outcome.outOfFuel

/-- Embeds `ht_insert`; the fuel bounds the nesting of `resize` calls. -/
def ht_insert : Nat → hashtable_t V → Key → V → Outcome (Int × hashtable_t V)
  | 0, _, _, _ => Outcome.outOfFuel
  | fuel + 1, ht, k, v =>
    match lookup ht k with
    | Outcome.undefined => Outcome.undefined
    | Outcome.outOfFuel => Outcome.outOfFuel
    | Outcome.ok none =>
      (match insert_te ht k v with
      | Outcome.undefined => Outcome.undefined
      | Outcome.outOfFuel => Outcome.outOfFuel
      | Outcome.ok (r, ht1) =>
        if r < 0 then Outcome.ok (-1, ht1)
        else
          let ht2 : hashtable_t V := { ht1 with load := ht1.load + 1 }
          if 4 * ht2.load > 3 * ht2.size then
            (match resize (ht_insert fuel) ht2 (ht2.size * 2) with
            | Outcome.ok (r2, ht3) => if r2 < 0 then Outcome.ok (-1, ht3) else Outcome.ok (0, ht3)
            | Outcome.undefined => Outcome.undefined
            | Outcome.outOfFuel => Outcome.outOfFuel)
          else Outcome.ok (0, ht2))
    | Outcome.ok (some _) =>
      (match dupval ht.type v with
      | none => Outcome.ok (-1, ht)
      | some w =>
        let hashval := hash k % ht.size
        Outcome.ok (0, { ht with tab := ht.tab.set hashval (replace_val k w (ht.tab.getD hashval [])) }))

/-- The `--load` of `ht_delete`, on `size_t`. -/
def decr_load (load : Nat) : Nat := if load = 0 then SIZE_MAX else load - 1

/-- Embeds `ht_delete`; the fuel is handed to the `ht_insert` calls of `resize`. -/
def ht_delete (fuel : Nat) (ht : hashtable_t V) (k : Key) : Outcome (Int × hashtable_t V) :=
  match lookup ht k with
  | Outcome.undefined => Outcome.undefined
  | Outcome.outOfFuel => Outcome.outOfFuel
  | Outcome.ok none => Outcome.ok (-1, ht)
  | Outcome.ok (some _) =>
    match delete_te ht k with
    | Outcome.undefined => Outcome.undefined
    | Outcome.outOfFuel => Outcome.outOfFuel
    | Outcome.ok (r, ht1) =>
      if r < 0 then Outcome.ok (-1, ht1)
      else
        let ht2 : hashtable_t V := { ht1 with load := decr_load ht1.load }
        if 4 * ht2.load < ht2.size then
          (match resize (ht_insert fuel) ht2 (ht2.size / 2) with
          | Outcome.ok (r2, ht3) => if r2 < 0 then Outcome.ok (-1, ht3) else Outcome.ok (0, ht3)
          | Outcome.undefined => Outcome.undefined
          | Outcome.outOfFuel => Outcome.outOfFuel)
        else Outcome.ok (0, ht2)

/-- The tables a caller can hold: made by `ht_create` with at least one bucket,
then passed through calls of `ht_insert` and `ht_delete` that returned. -/
inductive Reachable : hashtable_t V → Prop where
  | create (n : Nat) (kind : datatype_t) (hn : 1 ≤ n) : Reachable (ht_create n kind)
  | insert {ht ht1 : hashtable_t V} (fuel : Nat) (k : Key) (v : V) (r : Int)
      (hr : Reachable ht) (h : ht_insert fuel ht k v = Outcome.ok (r, ht1)) : Reachable ht1
  | delete {ht ht1 : hashtable_t V} (fuel : Nat) (k : Key) (r : Int)
      (hr : Reachable ht) (h : ht_delete fuel ht k = Outcome.ok (r, ht1)) : Reachable ht1

/-- The entries of a table, buckets in ascending order, chains head first. -/
def entries (ht : hashtable_t V) : List (tableentry_t V) := ht.tab.flatten

/-- The keys of a table, in the order of `entries`. -/
def keys (ht : hashtable_t V) : List Key := (entries ht).map tableentry_t.key

/-- Whether some entry of the table has key `k`. -/
def present (ht : hashtable_t V) (k : Key) : Prop := k ∈ keys ht

instance (ht : hashtable_t V) (k : Key) : Decidable (present ht k) :=
  inferInstanceAs (Decidable (k ∈ keys ht))

/-- The chain that `lookup` walks for `k`, and what the walk finds. -/
def find (ht : hashtable_t V) (k : Key) : Option (tableentry_t V) :=
  lookup_chain k (ht.tab.getD (hash k % ht.size) [])

/-- The table after `insert_te` and `++load`, for a table with a bucket. -/
def addNew (ht : hashtable_t V) (k : Key) (v : V) : hashtable_t V :=
  { type := ht.type, load := ht.load + 1,
    tab := ht.tab.set (hash k % ht.size)
      ({ key := k, val := v } :: ht.tab.getD (hash k % ht.size) []) }

/-- The table after `addNew` of each entry of a list, in order. -/
def addAll (es : List (tableentry_t V)) (nht : hashtable_t V) : hashtable_t V :=
  es.foldl (fun t te => addNew t te.key te.val) nht

/-- A chain without its first entry of key `k`. -/
def unlink (k : Key) : List (tableentry_t V) → List (tableentry_t V)
  | [] => []
  | te :: next => if te.key = k then next else te :: unlink k next

/-- The table after the value replacement of `ht_insert` on a present key. -/
def setVal (ht : hashtable_t V) (k : Key) (v : V) : hashtable_t V :=
  { type := ht.type, load := ht.load,
    tab := ht.tab.set (hash k % ht.size) (replace_val k v (ht.tab.getD (hash k % ht.size) [])) }

/-- The table after `delete_te` and `--load`, for a present key. -/
def dropKey (ht : hashtable_t V) (k : Key) : hashtable_t V :=
  { type := ht.type, load := decr_load ht.load,
    tab := ht.tab.set (hash k % ht.size) (unlink k (ht.tab.getD (hash k % ht.size) [])) }

/-- What `ht_insert` leaves in `*ht` on a table that satisfies `Good`. -/
def insert_result (ht : hashtable_t V) (k : Key) (v : V) : hashtable_t V :=
  if (find ht k).isSome then setVal ht k v
  else if 4 * (ht.load + 1) > 3 * ht.size then
    addAll (entries (addNew ht k v)) (ht_create (ht.size * 2) ht.type)
  else addNew ht k v

/-- What `ht_delete` leaves in `*ht` for a present key of a `Good` table. -/
def delete_result (ht : hashtable_t V) (k : Key) : hashtable_t V :=
  if 4 * (dropKey ht k).load < ht.size then
    addAll (entries (dropKey ht k)) (ht_create (ht.size / 2) ht.type)
  else dropKey ht k

/-- The structural invariant of a table: at least one bucket, every entry in
the bucket of its hash, no key twice, and `load` counting the entries. -/
structure Inv (ht : hashtable_t V) : Prop where
  size_pos : 1 ≤ ht.size
  placed : ∀ i, ∀ te ∈ ht.tab.getD i [], hash te.key % ht.size = i
  nodup : (keys ht).Nodup
  load_eq : ht.load = (entries ht).length

/-- The invariant of the tables a caller can hold. -/
structure Good (ht : hashtable_t V) : Prop where
  inv : Inv ht
  bound : 4 * ht.load ≤ 3 * ht.size

/-- The key "a". -/
def key_a : Key := [97]

/-- The key "b". -/
def key_b : Key := [98]

/-- The key "c". -/
def key_c : Key := [99]

/-- The key "d". -/
def key_d : Key := [100]

/-- The key "i"; it shares bucket 1 of a table of 4 buckets, and of 8, with "a". -/
def key_i : Key := [105]

/-- A table of capacity 4 and kind INTEGER after the insert of "a". -/
def scenario_a : hashtable_t Int :=
  { type := datatype_t.INTEGER, load := 1, tab := [[], [⟨key_a, 1⟩], [], []] }

/-- A table of capacity 4 and kind INTEGER after the inserts of "a", "b". -/
def scenario_ab : hashtable_t Int :=
  { type := datatype_t.INTEGER, load := 2, tab := [[], [⟨key_a, 1⟩], [⟨key_b, 2⟩], []] }

/-- A table of capacity 4 and kind INTEGER after the inserts of "a", "b", "c". -/
def scenario_abc : hashtable_t Int :=
  { type := datatype_t.INTEGER, load := 3,
    tab := [[], [⟨key_a, 1⟩], [⟨key_b, 2⟩], [⟨key_c, 3⟩]] }

/-- A table of capacity 8 and kind INTEGER after the insert of "a". -/
def scenario_a8 : hashtable_t Int :=
  { type := datatype_t.INTEGER, load := 1, tab := [[], [⟨key_a, 1⟩], [], [], [], [], [], []] }

/-- A table of capacity 8 and kind INTEGER after the inserts of "a" and "b". -/
def scenario_ab8 : hashtable_t Int :=
  { type := datatype_t.INTEGER, load := 2,
    tab := [[], [⟨key_a, 1⟩], [⟨key_b, 2⟩], [], [], [], [], []] }

/-- A table of capacity 8 after the inserts of "a", "b", "i": "i" heads the
chain of bucket 1, before "a". -/
def scenario_abi8 : hashtable_t Int :=
  { type := datatype_t.INTEGER, load := 3,
    tab := [[], [⟨key_i, 5⟩, ⟨key_a, 1⟩], [⟨key_b, 2⟩], [], [], [], [], []] }

/-- The polynomial of the hashing rule, in the words of the specification: for
the key `b_0 ... b_(n-1)`, the sum over `i` of `b_i * 31 ^ (n - 1 - i)`. -/
def hash_poly : Key → Int
  | [] => 0
  | b :: rest => b * 31 ^ rest.length + hash_poly rest

/-- A table of capacity 2 and kind INTEGER after the insert of "a" into a table
of capacity 1. -/
def scenario_a2 : hashtable_t Int :=
  { type := datatype_t.INTEGER, load := 1, tab := [[], [⟨key_a, 1⟩]] }

/-- A table of capacity 4 after the inserts of "a" then "i": both sit in bucket 1. -/
def scenario_ai : hashtable_t Int :=
  { type := datatype_t.INTEGER, load := 2, tab := [[], [⟨key_i, 5⟩, ⟨key_a, 1⟩], [], []] }

/-- A table of capacity 4 after the inserts of "a", "i", "b". -/
def scenario_aib : hashtable_t Int :=
  { type := datatype_t.INTEGER, load := 3,
    tab := [[], [⟨key_i, 5⟩, ⟨key_a, 1⟩], [⟨key_b, 2⟩], []] }

/-- The table after the inserts of "a", "i", "b", "c" into 4 buckets: the fourth
insert doubled it, and bucket 1 now holds "a" before "i". -/
def scenario_aibc8 : hashtable_t Int :=
  { type := datatype_t.INTEGER, load := 4,
    tab := [[], [⟨key_a, 1⟩, ⟨key_i, 5⟩], [⟨key_b, 2⟩], [⟨key_c, 3⟩], [], [], [], []] }

/-- The key "q"; it shares bucket 1 of a table of 8 buckets with "a" and "i". -/
def key_q : Key := [113]

/-- The table `scenario_aibc8` after the insert of "q", which needs no resize:
"q" heads bucket 1. -/
def scenario_aibcq8 : hashtable_t Int :=
  { type := datatype_t.INTEGER, load := 5,
    tab := [[], [⟨key_q, 9⟩, ⟨key_a, 1⟩, ⟨key_i, 5⟩], [⟨key_b, 2⟩], [⟨key_c, 3⟩],
            [], [], [], []] }

/-- A table with the caller's history.  `ord` lists the keys present, the one
whose (first) insert is the most recent first.  `recent` lists, in the same
order, those of them whose (first) insert came after the last call that changed
the capacity; a call that changes the capacity empties it. -/
inductive Chrono : hashtable_t V → List Key → List Key → Prop where
  | create (n : Nat) (kind : datatype_t) (hn : 1 ≤ n) : Chrono (ht_create n kind) [] []
  | insert_new {ht ht1 : hashtable_t V} {ord recent : List Key} (fuel : Nat) (k : Key)
      (v : V) (r : Int) (hc : Chrono ht ord recent) (hk : ¬ present ht k)
      (h : ht_insert fuel ht k v = Outcome.ok (r, ht1)) :
      Chrono ht1 (k :: ord) (if ht1.size = ht.size then k :: recent else [])
  | insert_old {ht ht1 : hashtable_t V} {ord recent : List Key} (fuel : Nat) (k : Key)
      (v : V) (r : Int) (hc : Chrono ht ord recent) (hk : present ht k)
      (h : ht_insert fuel ht k v = Outcome.ok (r, ht1)) :
      Chrono ht1 ord (if ht1.size = ht.size then recent else [])
  | delete_present {ht ht1 : hashtable_t V} {ord recent : List Key} (fuel : Nat) (k : Key)
      (r : Int) (hc : Chrono ht ord recent) (hk : present ht k)
      (h : ht_delete fuel ht k = Outcome.ok (r, ht1)) :
      Chrono ht1 (ord.erase k) (if ht1.size = ht.size then recent.erase k else [])
  | delete_absent {ht ht1 : hashtable_t V} {ord recent : List Key} (fuel : Nat) (k : Key)
      (r : Int) (hc : Chrono ht ord recent) (hk : ¬ present ht k)
      (h : ht_delete fuel ht k = Outcome.ok (r, ht1)) :
      Chrono ht1 ord (if ht1.size = ht.size then recent else [])

/-- A string literal of the source as a C string: the codes of its characters. -/
def cstr (s : String) : Key := s.toList.map (fun c => (c.toNat : Int))

/-- Embeds the array `stop_words` of `main.c`, in the order of the source. -/
def stop_words : List Key :=
  List.map cstr
    [
      "a", "about", "above", "above", "across", "after", "afterwards", "again", "against", "all",
      "almost", "alone", "along", "already", "also", "although", "always", "am", "among",
      "amongst", "amoungst", "amount", "an", "and", "another", "any", "anyhow", "anyone",
      "anything", "anyway", "anywhere", "are", "around", "as", "at", "back", "be", "became",
      "because", "become", "becomes", "becoming", "been", "before", "beforehand", "behind",
      "being", "below", "beside", "besides", "between", "beyond", "bill", "both", "bottom", "but",
      "by", "call", "can", "cannot", "cant", "co", "con", "could", "couldnt", "cry", "de",
      "describe", "detail", "do", "done", "down", "due", "during", "each", "eg", "eight",
      "either", "eleven", "else", "elsewhere", "empty", "enough", "etc", "even", "ever", "every",
      "everyone", "everything", "everywhere", "except", "few", "fifteen", "fify", "fill", "find",
      "fire", "first", "five", "for", "former", "formerly", "forty", "found", "four", "from",
      "front", "full", "further", "get", "give", "go", "had", "has", "hasnt", "have", "he",
      "hence", "her", "here", "hereafter", "hereby", "herein", "hereupon", "hers", "herself",
      "him", "himself", "his", "how", "however", "hundred", "ie", "if", "in", "inc", "indeed",
      "interest", "into", "is", "it", "its", "itself", "keep", "last", "latter", "latterly",
      "least", "less", "ltd", "made", "many", "may", "me", "meanwhile", "might", "mill", "mine",
      "more", "moreover", "most", "mostly", "move", "much", "must", "my", "myself", "name",
      "namely", "neither", "never", "nevertheless", "next", "nine", "no", "nobody", "none",
      "noone", "nor", "not", "nothing", "now", "nowhere", "of", "off", "often", "on", "once",
      "one", "only", "onto", "or", "other", "others", "otherwise", "our", "ours", "ourselves",
      "out", "over", "own", "part", "per", "perhaps", "please", "put", "rather", "re", "same",
      "see", "seem", "seemed", "seeming", "seems", "serious", "several", "she", "should", "show",
      "side", "since", "sincere", "six", "sixty", "so", "some", "somehow", "someone", "something",
      "sometime", "sometimes", "somewhere", "still", "such", "system", "take", "ten", "than",
      "that", "the", "their", "them", "themselves", "then", "thence", "there", "thereafter",
      "thereby", "therefore", "therein", "thereupon", "these", "they", "thickv", "thin", "third",
      "this", "those", "though", "three", "through", "throughout", "thru", "thus", "to",
      "together", "too", "top", "toward", "towards", "twelve", "twenty", "two", "un", "under",
      "until", "up", "upon", "us", "very", "via", "was", "we", "well", "were", "what", "whatever",
      "when", "whence", "whenever", "where", "whereafter", "whereas", "whereby", "wherein",
      "whereupon", "wherever", "whether", "which", "while", "whither", "who", "whoever", "whole",
      "whom", "whose", "why", "will", "with", "within", "without", "would", "yet", "you", "your",
      "yours", "yourself", "yourselves"
    ]

/-- Embeds `strcmp`, up to the sign of its result; bytes compare as `unsigned char`. -/
def strcmp : Key → Key → Int
  | [], [] => 0
  | [], _ :: _ => -1
  | _ :: _, [] => 1
  | a :: s, b :: t =>
    if a % 256 = b % 256 then strcmp s t else if a % 256 < b % 256 then -1 else 1

/-- The `while` loop of `is_stop_word`, on `size_t` indices `lo` and `hi`; a read
of `stop_words[mid]` outside the array is undefined.  The fuel bounds the number
of evaluations of the loop condition. -/
def is_stop_word_loop (w : Key) : Nat → Nat → Nat → Outcome Int
  | 0, _, _ => Outcome.outOfFuel
  | fuel + 1, lo, hi =>
    if lo ≤ hi then
      let mid := ((lo + hi) % 2 ^ 64) / 2
      match stop_words[mid]? with
      | none => Outcome.undefined
      | some sw =>
        if strcmp w sw > 0 then is_stop_word_loop w fuel lo ((mid + 2 ^ 64 - 1) % 2 ^ 64)
        else if strcmp w sw < 0 then is_stop_word_loop w fuel ((mid + 1) % 2 ^ 64) hi
        else Outcome.ok 1
    else Outcome.ok 0

/-- Embeds `is_stop_word`: `n` is the length of `stop_words`, `lo = 0`, `hi = n - 1`. -/
def is_stop_word (fuel : Nat) (w : Key) : Outcome Int :=
  is_stop_word_loop w fuel 0 ((stop_words.length + 2 ^ 64 - 1) % 2 ^ 64)

/-- The initial table size `HASHSIZE` of `main.c`. -/
def HASHSIZE : Nat := 101

/-- The delimiters of `count_words`: space , . ! ? apostrophe double-quote ( ) [ ]. -/
def delim : List Int := [32, 44, 46, 33, 63, 39, 34, 40, 41, 91, 93]

/-- Embeds `tolower` in the C locale; its argument must be an `unsigned char`
value or `EOF`. -/
def tolower (c : Int) : Outcome Int :=
  if c < -1 ∨ 255 < c then Outcome.undefined
  else if 65 ≤ c ∧ c ≤ 90 then Outcome.ok (c + 32)
  else Outcome.ok c

/-- Embeds `lower_str`. -/
def lower_str : Key → Outcome Key
  | [] => Outcome.ok []
  | c :: rest =>
    match tolower c with
    | Outcome.ok d =>
      (match lower_str rest with
      | Outcome.ok t => Outcome.ok (d :: t)
      | Outcome.undefined => Outcome.undefined
      | Outcome.outOfFuel => Outcome.outOfFuel)
    | Outcome.undefined => Outcome.undefined
    | Outcome.outOfFuel => Outcome.outOfFuel

/-- The successive results of `strtok(scpy, delim)`, `strtok(NULL, delim)`, ...:
the maximal runs of non-delimiters of the text; `cur` is the run being read. -/
def strtok_all (cur : Key) : Key → List Key
  | [] => if cur = [] then [] else [cur]
  | c :: rest =>
    if c ∈ delim then (if cur = [] then strtok_all [] rest else cur :: strtok_all [] rest)
    else strtok_all (cur ++ [c]) rest

/-- What the caller of `index_word` holds in its own `ht` afterwards: the table,
a pointer to the table that a `resize` inside `ht_insert` freed (`index_word`
gets the pointer by value), or nothing because `handle_error` ended the process. -/
inductive Held where
  | table (ht : hashtable_t Int)
  | dangling
  | exited (status : Int)
deriving DecidableEq, Repr

/-- Embeds `index_word`; `INT_MAX` is `2 ^ 31 - 1`. -/
def index_word (fuel : Nat) (w : Key) (ht : hashtable_t Int) : Outcome Held :=
  match ht_get ht w with
  | Outcome.undefined => Outcome.undefined
  | Outcome.outOfFuel => Outcome.outOfFuel
  | Outcome.ok none =>
    (match ht_insert fuel ht w 1 with
    | Outcome.undefined => Outcome.undefined
    | Outcome.outOfFuel => Outcome.outOfFuel
    | Outcome.ok (r, ht1) =>
      if r < 0 then Outcome.ok (Held.exited 4)
      else if ht1.size = ht.size then Outcome.ok (Held.table ht1)
      else Outcome.ok Held.dangling)
  | Outcome.ok (some count) =>
    if count = 2 ^ 31 - 1 then Outcome.undefined
    else Outcome.ok (Held.table (setVal ht w (count + 1)))

/-- The `while` loop of `count_words` over the words that `strtok` yields. -/
def count_words_loop (fuel : Nat) : List Key → Held → Outcome Held
  | [], held => Outcome.ok held
  | _ :: _, Held.exited status => Outcome.ok (Held.exited status)
  | _ :: _, Held.dangling => Outcome.undefined
  | w :: rest, Held.table ht =>
    match lower_str w with
    | Outcome.undefined => Outcome.undefined
    | Outcome.outOfFuel => Outcome.outOfFuel
    | Outcome.ok lw =>
      match index_word fuel lw ht with
      | Outcome.undefined => Outcome.undefined
      | Outcome.outOfFuel => Outcome.outOfFuel
      | Outcome.ok held => count_words_loop fuel rest held

/-- Embeds `count_words`. -/
def count_words (fuel : Nat) (s : Key) : Outcome Held :=
  count_words_loop fuel (strtok_all [] s) (Held.table (ht_create HASHSIZE datatype_t.INTEGER))

/-! ## Chains -/

theorem lookup_chain_none_iff (k : Key) (c : List (tableentry_t V)) :
    lookup_chain k c = none ↔ k ∉ c.map tableentry_t.key := by
  induction c with
  | nil => simp [lookup_chain]
  | cons te next ih =>
    by_cases h : te.key = k
    · simp [lookup_chain, h]
    · simp [lookup_chain, h, ih, Ne.symm h]

theorem lookup_chain_some {k : Key} {c : List (tableentry_t V)} {te : tableentry_t V}
    (h : lookup_chain k c = some te) : te ∈ c ∧ te.key = k := by
  induction c with
  | nil => simp [lookup_chain] at h
  | cons a next ih =>
    by_cases ha : a.key = k
    · simp [lookup_chain, ha] at h
      subst h
      exact ⟨List.mem_cons_self _ _, ha⟩
    · simp [lookup_chain, ha] at h
      exact ⟨List.mem_cons_of_mem _ (ih h).1, (ih h).2⟩

theorem lookup_chain_of_mem {c : List (tableentry_t V)} {te : tableentry_t V}
    (hnd : (c.map tableentry_t.key).Nodup) (hm : te ∈ c) :
    lookup_chain te.key c = some te := by
  induction c with
  | nil => simp at hm
  | cons a next ih =>
    simp only [List.map_cons, List.nodup_cons] at hnd
    rcases List.mem_cons.1 hm with rfl | hm1
    · simp [lookup_chain]
    · have hne : a.key ≠ te.key := by
        intro heq
        exact hnd.1 (heq ▸ List.mem_map_of_mem _ hm1)
      simp [lookup_chain, hne, ih hnd.2 hm1]

theorem lookup_chain_cons_ne {k k1 : Key} (v : V) (c : List (tableentry_t V)) (h : k1 ≠ k) :
    lookup_chain k1 ({ key := k, val := v } :: c) = lookup_chain k1 c := by
  simp [lookup_chain, Ne.symm h]

theorem unlink_perm {k : Key} {c : List (tableentry_t V)} {te : tableentry_t V}
    (h : lookup_chain k c = some te) : List.Perm c (te :: unlink k c) := by
  induction c with
  | nil => simp [lookup_chain] at h
  | cons a next ih =>
    by_cases ha : a.key = k
    · simp [lookup_chain, ha] at h
      subst h
      simp [unlink, ha]
    · simp [lookup_chain, ha] at h
      simp only [unlink, ha, if_false]
      exact (List.Perm.cons a (ih h)).trans (List.Perm.swap _ _ _)

theorem lookup_chain_unlink_ne {k k1 : Key} (c : List (tableentry_t V)) (h : k1 ≠ k) :
    lookup_chain k1 (unlink k c) = lookup_chain k1 c := by
  induction c with
  | nil => simp [unlink]
  | cons a next ih =>
    by_cases ha : a.key = k
    · simp [unlink, ha, lookup_chain, Ne.symm h]
    · by_cases hb : a.key = k1
      · simp [unlink, lookup_chain, hb, h]
      · simp [unlink, ha, lookup_chain, hb, ih]

theorem replace_val_keys (k : Key) (w : V) (c : List (tableentry_t V)) :
    (replace_val k w c).map tableentry_t.key = c.map tableentry_t.key := by
  induction c with
  | nil => simp [replace_val]
  | cons a next ih =>
    by_cases ha : a.key = k
    · simp [replace_val, ha]
    · simp [replace_val, ha, ih]

theorem lookup_chain_replace_val_self {k : Key} (w : V) {c : List (tableentry_t V)}
    (h : (lookup_chain k c).isSome) :
    lookup_chain k (replace_val k w c) = some { key := k, val := w } := by
  induction c with
  | nil => simp [lookup_chain] at h
  | cons a next ih =>
    by_cases ha : a.key = k
    · simp [replace_val, lookup_chain, ha]
    · simp [lookup_chain, ha] at h
      simp [replace_val, lookup_chain, ha, ih h]

theorem lookup_chain_replace_val_ne {k k1 : Key} (w : V) (c : List (tableentry_t V))
    (h : k1 ≠ k) : lookup_chain k1 (replace_val k w c) = lookup_chain k1 c := by
  induction c with
  | nil => simp [replace_val]
  | cons a next ih =>
    by_cases ha : a.key = k
    · simp [replace_val, lookup_chain, ha, Ne.symm h]
    · by_cases hb : a.key = k1
      · simp [replace_val, lookup_chain, hb, h]
      · simp [replace_val, lookup_chain, ha, hb, ih]

theorem replace_val_eq_map {k : Key} (w : V) {c : List (tableentry_t V)}
    (hnd : (c.map tableentry_t.key).Nodup) :
    replace_val k w c = c.map (fun te => if te.key = k then { te with val := w } else te) := by
  induction c with
  | nil => simp [replace_val]
  | cons a next ih =>
    simp only [List.map_cons, List.nodup_cons] at hnd
    by_cases ha : a.key = k
    · have hk : k ∉ next.map tableentry_t.key := ha ▸ hnd.1
      have hid : next.map (fun te => if te.key = k then { te with val := w } else te) = next := by
        conv_rhs => rw [← List.map_id next]
        apply List.map_congr_left
        intro te hte
        have : te.key ≠ k := fun e => hk (e ▸ List.mem_map_of_mem _ hte)
        simp [this]
      simp [replace_val, ha, hid]
    · simp [replace_val, ha, ih hnd.2]

theorem delete_te_loop_eq (k : Key) (c visited : List (tableentry_t V)) (assigned : Bool)
    (h : assigned = true ∨ ∀ te next, c = te :: next → te.key ≠ k) :
    delete_te_loop k assigned visited c =
      if k ∈ c.map tableentry_t.key then Outcome.ok (some (visited ++ unlink k c))
      else Outcome.ok none := by
  induction c generalizing visited assigned with
  | nil => simp [delete_te_loop]
  | cons a next ih =>
    by_cases ha : a.key = k
    · rcases h with h | h
      · simp [delete_te_loop, ha, h, unlink]
      · exact absurd ha (h a next rfl)
    · rw [delete_te_loop, if_neg ha, ih (visited ++ [a]) true (Or.inl rfl)]
      simp [unlink, ha, Ne.symm ha]

/-! ## The bucket array -/

theorem getD_set_tab (tab : List (List (tableentry_t V))) (i j : Nat)
    (c : List (tableentry_t V)) :
    (tab.set i c).getD j [] = if i = j ∧ i < tab.length then c else tab.getD j [] := by
  simp only [List.getD_eq_getElem?_getD, List.getElem?_set]
  by_cases hij : i = j
  · subst hij
    by_cases hl : i < tab.length
    · simp [hl]
    · simp [hl, List.getElem?_eq_none (Nat.le_of_not_lt hl)]
  · simp [hij]

theorem flatten_set_split (tab : List (List (tableentry_t V))) (i : Nat) (hi : i < tab.length) :
    ∃ a b, tab.flatten = a ++ tab.getD i [] ++ b ∧
      ∀ c, (tab.set i c).flatten = a ++ c ++ b := by
  induction tab generalizing i with
  | nil => simp at hi
  | cons x rest ih =>
    cases i with
    | zero => exact ⟨[], rest.flatten, by simp, fun c => by simp⟩
    | succ n =>
      obtain ⟨a, b, h1, h2⟩ := ih n (Nat.lt_of_succ_lt_succ hi)
      refine ⟨x ++ a, b, ?_, fun c => ?_⟩
      · simp only [List.flatten_cons, h1, List.getD_cons_succ, List.append_assoc]
      · simp only [List.set_cons_succ, List.flatten_cons, h2 c, List.append_assoc]

theorem mem_flatten_of_getD {tab : List (List (tableentry_t V))} {i : Nat}
    {te : tableentry_t V} (h : te ∈ tab.getD i []) : te ∈ tab.flatten := by
  by_cases hi : i < tab.length
  · rw [List.getD_eq_getElem _ _ hi] at h
    exact List.mem_flatten.2 ⟨tab[i], List.getElem_mem hi, h⟩
  · rw [List.getD_eq_default _ _ (Nat.le_of_not_lt hi)] at h
    simp at h

theorem getD_of_mem_flatten {tab : List (List (tableentry_t V))} {te : tableentry_t V}
    (h : te ∈ tab.flatten) : ∃ i, i < tab.length ∧ te ∈ tab.getD i [] := by
  obtain ⟨c, hc, hte⟩ := List.mem_flatten.1 h
  obtain ⟨i, hi, rfl⟩ := List.getElem_of_mem hc
  exact ⟨i, hi, by rw [List.getD_eq_getElem _ _ hi]; exact hte⟩

theorem getD_keys_sublist (tab : List (List (tableentry_t V))) (i : Nat) :
    List.Sublist ((tab.getD i []).map tableentry_t.key) (tab.flatten.map tableentry_t.key) := by
  by_cases hi : i < tab.length
  · obtain ⟨a, b, h1, _⟩ := flatten_set_split tab i hi
    rw [h1]
    simp only [List.map_append]
    exact (List.sublist_append_right _ _).trans (List.sublist_append_left _ _)
  · rw [List.getD_eq_default _ _ (Nat.le_of_not_lt hi)]
    exact List.nil_sublist _

theorem bucket_lt (ht : hashtable_t V) (k : Key) (h : 1 ≤ ht.size) :
    hash k % ht.size < ht.tab.length := Nat.mod_lt _ h

/-! ## `find` on tables that satisfy the invariant -/

theorem find_of_mem {ht : hashtable_t V} (hI : Inv ht) {te : tableentry_t V}
    (hm : te ∈ entries ht) : find ht te.key = some te := by
  obtain ⟨i, _, hte⟩ := getD_of_mem_flatten hm
  have hp := hI.placed i te hte
  have hnd : ((ht.tab.getD i []).map tableentry_t.key).Nodup :=
    List.Nodup.sublist (getD_keys_sublist ht.tab i) hI.nodup
  unfold find
  rw [hp]
  exact lookup_chain_of_mem hnd hte

theorem find_none_of_not_present {ht : hashtable_t V} {k : Key} (h : ¬ present ht k) :
    find ht k = none := by
  unfold find
  rw [lookup_chain_none_iff]
  intro hk
  exact h ((getD_keys_sublist ht.tab _).subset hk)

theorem find_some_mem {ht : hashtable_t V} {k : Key} {te : tableentry_t V}
    (h : find ht k = some te) : te ∈ entries ht ∧ te.key = k :=
  ⟨mem_flatten_of_getD (lookup_chain_some h).1, (lookup_chain_some h).2⟩

theorem find_isSome_iff {ht : hashtable_t V} (hI : Inv ht) (k : Key) :
    (find ht k).isSome ↔ present ht k := by
  constructor
  · intro h
    obtain ⟨te, hte⟩ := Option.isSome_iff_exists.1 h
    have := find_some_mem hte
    exact this.2 ▸ List.mem_map_of_mem _ this.1
  · intro h
    obtain ⟨te, hte, rfl⟩ := List.mem_map.1 h
    simp [find_of_mem hI hte]

theorem find_congr {a b : hashtable_t V} (ha : Inv a) (hb : Inv b)
    (h : ∀ te, te ∈ entries a ↔ te ∈ entries b) (k : Key) : find a k = find b k := by
  by_cases hk : present a k
  · obtain ⟨te, hte, rfl⟩ := List.mem_map.1 hk
    rw [find_of_mem ha hte, find_of_mem hb ((h te).1 hte)]
  · have hk2 : ¬ present b k := by
      intro hp
      obtain ⟨te, hte, rfl⟩ := List.mem_map.1 hp
      exact hk (List.mem_map_of_mem _ ((h te).2 hte))
    rw [find_none_of_not_present hk, find_none_of_not_present hk2]

theorem lookup_eq_find {ht : hashtable_t V} (h : 1 ≤ ht.size) (k : Key) :
    lookup ht k = Outcome.ok (find ht k) := by
  have : ht.size ≠ 0 := by omega
  simp [lookup, find, this]

theorem ht_get_eq_find {ht : hashtable_t V} (h : 1 ≤ ht.size) (k : Key) :
    ht_get ht k = Outcome.ok ((find ht k).map tableentry_t.val) := by
  unfold ht_get
  rw [lookup_eq_find h]
  cases find ht k <;> rfl

/-! ## The three bucket updates: `addNew`, `setVal`, `dropKey` -/

theorem placed_set {tab : List (List (tableentry_t V))} {n i : Nat} {c : List (tableentry_t V)}
    (hp : ∀ j, ∀ te ∈ tab.getD j [], hash te.key % n = j)
    (hc : ∀ te ∈ c, hash te.key % n = i) :
    ∀ j, ∀ te ∈ (tab.set i c).getD j [], hash te.key % n = j := by
  intro j te hte
  rw [getD_set_tab] at hte
  by_cases hij : i = j ∧ i < tab.length
  · rw [if_pos hij] at hte
    exact hij.1 ▸ hc te hte
  · rw [if_neg hij] at hte
    exact hp j te hte

theorem unlink_sublist (k : Key) (c : List (tableentry_t V)) : List.Sublist (unlink k c) c := by
  induction c with
  | nil => simp [unlink]
  | cons a next ih =>
    by_cases ha : a.key = k
    · simp [unlink, ha]
    · simp [unlink, ha, ih]

@[simp] theorem addNew_size (ht : hashtable_t V) (k : Key) (v : V) :
    (addNew ht k v).size = ht.size := by
  simp [addNew, hashtable_t.size]

@[simp] theorem addNew_load (ht : hashtable_t V) (k : Key) (v : V) :
    (addNew ht k v).load = ht.load + 1 := rfl

@[simp] theorem addNew_type (ht : hashtable_t V) (k : Key) (v : V) :
    (addNew ht k v).type = ht.type := rfl

theorem addNew_entries_perm (ht : hashtable_t V) (k : Key) (v : V) (h : 1 ≤ ht.size) :
    List.Perm (entries (addNew ht k v)) ({ key := k, val := v } :: entries ht) := by
  obtain ⟨a, b, h1, h2⟩ := flatten_set_split ht.tab _ (bucket_lt ht k h)
  unfold entries
  rw [addNew, h2, h1]
  simp only [List.append_assoc]
  exact List.perm_middle

theorem find_addNew (ht : hashtable_t V) (k : Key) (v : V) (h : 1 ≤ ht.size) (k1 : Key) :
    find (addNew ht k v) k1 = if k1 = k then some { key := k, val := v } else find ht k1 := by
  unfold find
  rw [addNew_size]
  simp only [addNew, getD_set_tab]
  by_cases hk : k1 = k
  · subst hk
    simp [bucket_lt ht k1 h, lookup_chain]
  · rw [if_neg hk]
    by_cases hij : hash k % ht.size = hash k1 % ht.size ∧ hash k % ht.size < ht.tab.length
    · rw [if_pos hij, lookup_chain_cons_ne v _ hk, hij.1]
    · rw [if_neg hij]

theorem inv_addNew {ht : hashtable_t V} (hI : Inv ht) {k : Key} (v : V)
    (hk : ¬ present ht k) : Inv (addNew ht k v) := by
  have hperm := addNew_entries_perm ht k v hI.size_pos
  refine ⟨by simpa using hI.size_pos, ?_, ?_, ?_⟩
  · rw [addNew_size]
    apply placed_set hI.placed
    intro te hte
    rcases List.mem_cons.1 hte with rfl | hte
    · rfl
    · exact hI.placed _ te hte
  · have hkp : List.Perm (keys (addNew ht k v)) (k :: keys ht) := by
      simpa [keys] using hperm.map tableentry_t.key
    exact (List.Perm.nodup_iff hkp).2 (List.nodup_cons.2 ⟨hk, hI.nodup⟩)
  · rw [addNew_load, hperm.length_eq, List.length_cons, hI.load_eq]

@[simp] theorem setVal_size (ht : hashtable_t V) (k : Key) (v : V) :
    (setVal ht k v).size = ht.size := by
  simp [setVal, hashtable_t.size]

theorem find_setVal (ht : hashtable_t V) (k : Key) (v : V) (h : 1 ≤ ht.size)
    (hf : (find ht k).isSome) (k1 : Key) :
    find (setVal ht k v) k1 = if k1 = k then some { key := k, val := v } else find ht k1 := by
  unfold find
  rw [setVal_size]
  simp only [setVal, getD_set_tab]
  by_cases hk : k1 = k
  · subst hk
    simp only [bucket_lt ht k1 h, and_self, if_true]
    exact lookup_chain_replace_val_self v hf
  · rw [if_neg hk]
    by_cases hij : hash k % ht.size = hash k1 % ht.size ∧ hash k % ht.size < ht.tab.length
    · rw [if_pos hij, lookup_chain_replace_val_ne v _ hk, hij.1]
    · rw [if_neg hij]

theorem setVal_tab {ht : hashtable_t V} (hI : Inv ht) (k : Key) (v : V) :
    (setVal ht k v).tab =
      ht.tab.map (fun c => c.map (fun te => if te.key = k then { te with val := v } else te)) := by
  apply List.ext_getElem?
  intro j
  simp only [setVal, List.getElem?_set, List.getElem?_map]
  by_cases hij : hash k % ht.size = j
  · subst hij
    have hlt := bucket_lt ht k hI.size_pos
    have hnd : ((ht.tab.getD (hash k % ht.size) []).map tableentry_t.key).Nodup :=
      List.Nodup.sublist (getD_keys_sublist ht.tab _) hI.nodup
    rw [if_pos rfl, if_pos hlt, replace_val_eq_map v hnd, List.getD_eq_getElem _ _ hlt,
      List.getElem?_eq_getElem hlt]
    rfl
  · rw [if_neg hij]
    by_cases hj : j < ht.tab.length
    · rw [List.getElem?_eq_getElem hj]
      simp only [Option.map_some', Option.some.injEq]
      have hid : ∀ te ∈ ht.tab[j], (if te.key = k then { te with val := v } else te) = te := by
        intro te hte
        have hp := hI.placed j te (by rw [List.getD_eq_getElem _ _ hj]; exact hte)
        have : te.key ≠ k := fun e => hij (e ▸ hp)
        simp [this]
      conv_lhs => rw [← List.map_id ht.tab[j]]
      exact List.map_congr_left (fun te hte => (hid te hte).symm)
    · simp [List.getElem?_eq_none (Nat.le_of_not_lt hj)]

theorem inv_setVal {ht : hashtable_t V} (hI : Inv ht) (k : Key) (v : V) :
    Inv (setVal ht k v) := by
  have hkeys : keys (setVal ht k v) = keys ht := by
    unfold keys entries
    rw [setVal_tab hI, List.map_flatten, List.map_flatten, List.map_map]
    congr 1
    apply List.map_congr_left
    intro c _
    simp only [Function.comp, List.map_map]
    apply List.map_congr_left
    intro te _
    by_cases h : te.key = k <;> simp [h]
  refine ⟨by simpa using hI.size_pos, ?_, by rw [hkeys]; exact hI.nodup, ?_⟩
  · intro j te hte
    rw [setVal_size]
    rw [setVal_tab hI] at hte
    by_cases hj : j < ht.tab.length
    · rw [List.getD_eq_getElem _ _ (by simpa using hj)] at hte
      simp only [List.getElem_map, List.mem_map] at hte
      obtain ⟨te0, hte0, rfl⟩ := hte
      have hp := hI.placed j te0 (by rw [List.getD_eq_getElem _ _ hj]; exact hte0)
      by_cases h : te0.key = k <;> simpa [h] using hp
    · rw [List.getD_eq_default _ _ (by simpa using Nat.le_of_not_lt hj)] at hte
      simp at hte
  · have h1 : (entries (setVal ht k v)).length = (keys (setVal ht k v)).length := by
      simp [keys]
    have h2 : (entries ht).length = (keys ht).length := by simp [keys]
    show ht.load = _
    rw [h1, hkeys, ← h2, hI.load_eq]

@[simp] theorem dropKey_size (ht : hashtable_t V) (k : Key) :
    (dropKey ht k).size = ht.size := by
  simp [dropKey, hashtable_t.size]

theorem dropKey_entries_perm (ht : hashtable_t V) (k : Key) (h : 1 ≤ ht.size)
    {te : tableentry_t V} (hf : find ht k = some te) :
    List.Perm (entries ht) (te :: entries (dropKey ht k)) := by
  obtain ⟨a, b, h1, h2⟩ := flatten_set_split ht.tab _ (bucket_lt ht k h)
  unfold entries
  rw [dropKey, h2, h1]
  simp only [List.append_assoc]
  refine List.Perm.trans ?_ List.perm_middle
  exact List.Perm.append_left a (List.Perm.append_right b (unlink_perm hf))

theorem inv_dropKey {ht : hashtable_t V} (hI : Inv ht) {k : Key} {te : tableentry_t V}
    (hf : find ht k = some te) :
    Inv (dropKey ht k) ∧ (dropKey ht k).load + 1 = ht.load ∧ ¬ present (dropKey ht k) k := by
  have hperm := dropKey_entries_perm ht k hI.size_pos hf
  have hkp : List.Perm (keys ht) (k :: keys (dropKey ht k)) := by
    have := hperm.map tableentry_t.key
    simpa [keys, (find_some_mem hf).2] using this
  have hnd := (List.Perm.nodup_iff hkp).1 hI.nodup
  have hlen : (entries ht).length = (entries (dropKey ht k)).length + 1 := by
    simpa using hperm.length_eq
  have hload : (dropKey ht k).load = ht.load - 1 := by
    have : ht.load ≠ 0 := by rw [hI.load_eq, hlen]; omega
    simp [dropKey, decr_load, this]
  refine ⟨⟨by simpa using hI.size_pos, ?_, (List.nodup_cons.1 hnd).2, ?_⟩, ?_,
    (List.nodup_cons.1 hnd).1⟩
  · rw [dropKey_size]
    apply placed_set hI.placed
    intro te1 hte1
    exact hI.placed _ te1 ((unlink_sublist k _).subset hte1)
  · rw [hload, hI.load_eq, hlen]; omega
  · rw [hload, hI.load_eq, hlen]; omega

theorem find_dropKey {ht : hashtable_t V} (hI : Inv ht) {k : Key} {te : tableentry_t V}
    (hf : find ht k = some te) (k1 : Key) :
    find (dropKey ht k) k1 = if k1 = k then none else find ht k1 := by
  by_cases hk : k1 = k
  · subst hk
    rw [if_pos rfl]
    exact find_none_of_not_present (inv_dropKey hI hf).2.2
  · rw [if_neg hk]
    unfold find
    rw [dropKey_size]
    simp only [dropKey, getD_set_tab]
    by_cases hij : hash k % ht.size = hash k1 % ht.size ∧ hash k % ht.size < ht.tab.length
    · rw [if_pos hij, lookup_chain_unlink_ne _ hk, hij.1]
    · rw [if_neg hij]

/-! ## Rehashing into a fresh table -/

theorem inv_create (n : Nat) (type : datatype_t) (hn : 1 ≤ n) :
    Inv (ht_create n type : hashtable_t V) := by
  refine ⟨by simpa [ht_create, hashtable_t.size] using hn, ?_, ?_, ?_⟩
  · intro i te hte
    have := mem_flatten_of_getD hte
    simp [ht_create] at this
  · simp [keys, entries, ht_create]
  · simp [entries, ht_create]

theorem entries_create (n : Nat) (type : datatype_t) :
    entries (ht_create n type : hashtable_t V) = [] := by
  simp [entries, ht_create]

@[simp] theorem create_size (n : Nat) (type : datatype_t) :
    (ht_create n type : hashtable_t V).size = n := by
  simp [ht_create, hashtable_t.size]

@[simp] theorem addAll_size (es : List (tableentry_t V)) (nht : hashtable_t V) :
    (addAll es nht).size = nht.size := by
  induction es generalizing nht with
  | nil => rfl
  | cons e rest ih => simp only [addAll, List.foldl_cons] at ih ⊢; rw [ih, addNew_size]

@[simp] theorem addAll_load (es : List (tableentry_t V)) (nht : hashtable_t V) :
    (addAll es nht).load = nht.load + es.length := by
  induction es generalizing nht with
  | nil => rfl
  | cons e rest ih =>
    simp only [addAll, List.foldl_cons, List.length_cons] at ih ⊢
    rw [ih, addNew_load]; omega

@[simp] theorem addAll_type (es : List (tableentry_t V)) (nht : hashtable_t V) :
    (addAll es nht).type = nht.type := by
  induction es generalizing nht with
  | nil => rfl
  | cons e rest ih => simp only [addAll, List.foldl_cons] at ih ⊢; rw [ih, addNew_type]

theorem keys_addNew_perm (ht : hashtable_t V) (k : Key) (v : V) (h : 1 ≤ ht.size) :
    List.Perm (keys (addNew ht k v)) (k :: keys ht) := by
  simpa [keys] using (addNew_entries_perm ht k v h).map tableentry_t.key

theorem nodup_step {nht : hashtable_t V} (h : 1 ≤ nht.size) {e : tableentry_t V}
    {rest : List (tableentry_t V)}
    (hnd : (((e :: rest).map tableentry_t.key) ++ keys nht).Nodup) :
    ¬ present nht e.key ∧
      ((rest.map tableentry_t.key) ++ keys (addNew nht e.key e.val)).Nodup := by
  simp only [List.map_cons, List.cons_append, List.nodup_cons, List.mem_append] at hnd
  refine ⟨fun hp => hnd.1 (Or.inr hp), ?_⟩
  have hp : List.Perm ((rest.map tableentry_t.key) ++ keys (addNew nht e.key e.val))
      (e.key :: ((rest.map tableentry_t.key) ++ keys nht)) :=
    (List.Perm.append_left _ (keys_addNew_perm nht e.key e.val h)).trans List.perm_middle
  exact (List.Perm.nodup_iff hp).2
    (List.nodup_cons.2 ⟨fun hm => hnd.1 (List.mem_append.1 hm), hnd.2⟩)

theorem inv_addAll (es : List (tableentry_t V)) {nht : hashtable_t V} (hI : Inv nht)
    (hnd : ((es.map tableentry_t.key) ++ keys nht).Nodup) :
    Inv (addAll es nht) ∧ List.Perm (entries (addAll es nht)) (es ++ entries nht) := by
  induction es generalizing nht with
  | nil => exact ⟨hI, List.Perm.refl _⟩
  | cons e rest ih =>
    obtain ⟨hnew, hnd1⟩ := nodup_step hI.size_pos hnd
    obtain ⟨h1, h2⟩ := ih (inv_addNew hI e.val hnew) hnd1
    refine ⟨h1, h2.trans ?_⟩
    exact (List.Perm.append_left rest (addNew_entries_perm nht e.key e.val hI.size_pos)).trans
      List.perm_middle

theorem ht_insert_new_noresize (fuel : Nat) {ht : hashtable_t V} (h : 1 ≤ ht.size) {k : Key}
    (v : V) (hf : find ht k = none) (hb : 4 * (ht.load + 1) ≤ 3 * ht.size) :
    ht_insert (fuel + 1) ht k v = Outcome.ok (0, addNew ht k v) := by
  have h0 : ht.size ≠ 0 := by omega
  have hl := lookup_eq_find h k
  cases ht with
  | mk type load tab =>
    simp only [hashtable_t.size] at h0 hb hl hf ⊢
    cases type <;>
    simp [ht_insert, hl, hf, insert_te, alloc_te, dupval, h0, addNew, hashtable_t.size,
      Nat.not_lt.2 hb]

theorem ht_insert_new_resize (fuel : Nat) {ht : hashtable_t V} (h : 1 ≤ ht.size) {k : Key}
    (v : V) (hf : find ht k = none) (hb : 3 * ht.size < 4 * (ht.load + 1))
    {res : hashtable_t V}
    (hr : resize (ht_insert fuel) (addNew ht k v) (ht.size * 2) = Outcome.ok (0, res)) :
    ht_insert (fuel + 1) ht k v = Outcome.ok (0, res) := by
  have h0 : ht.size ≠ 0 := by omega
  have hl := lookup_eq_find h k
  unfold addNew at hr
  cases ht with
  | mk type load tab =>
    simp only [hashtable_t.size] at h0 hb hl hf hr ⊢
    cases type <;>
    simp [-List.getD_eq_getElem?_getD, ht_insert, hl, hf, insert_te, alloc_te, dupval, h0,
      hashtable_t.size, hb, hr]

theorem ht_insert_present (fuel : Nat) {ht : hashtable_t V} (h : 1 ≤ ht.size) {k : Key}
    (v : V) (hf : (find ht k).isSome) :
    ht_insert (fuel + 1) ht k v = Outcome.ok (0, setVal ht k v) := by
  obtain ⟨te, hte⟩ := Option.isSome_iff_exists.1 hf
  cases ht with
  | mk type load tab =>
    cases type <;> simp [ht_insert, lookup_eq_find h, hte, dupval, setVal]

theorem rehash_eq (fuel : Nat) (es : List (tableentry_t V)) {nht : hashtable_t V}
    (hI : Inv nht) (hnd : ((es.map tableentry_t.key) ++ keys nht).Nodup)
    (hb : 4 * (nht.load + es.length) ≤ 3 * nht.size) :
    rehash (ht_insert (fuel + 1)) es nht = Outcome.ok (some (addAll es nht)) := by
  induction es generalizing nht with
  | nil => rfl
  | cons e rest ih =>
    obtain ⟨hnew, hnd1⟩ := nodup_step hI.size_pos hnd
    have hf := find_none_of_not_present hnew
    simp only [List.length_cons] at hb
    have hstep := ht_insert_new_noresize fuel hI.size_pos e.val hf (by omega)
    have hrest := ih (inv_addNew hI e.val hnew) hnd1
      (by rw [addNew_load, addNew_size]; omega)
    simp only [rehash, hstep, addAll, List.foldl_cons]
    simpa [addAll] using hrest

theorem resize_eq (fuel : Nat) {ht : hashtable_t V} (hI : Inv ht) {n : Nat} (hn : 1 ≤ n)
    (hb : 4 * ht.load ≤ 3 * n) :
    resize (ht_insert (fuel + 1)) ht n =
      Outcome.ok (0, addAll (entries ht) (ht_create n ht.type)) := by
  have hc : Inv (ht_create n ht.type : hashtable_t V) := inv_create n ht.type hn
  have hnd : (((entries ht).map tableentry_t.key) ++
      keys (ht_create n ht.type : hashtable_t V)).Nodup := by
    simpa [keys, entries_create] using hI.nodup
  have := rehash_eq fuel (entries ht) hc hnd
    (by rw [create_size, ← hI.load_eq]; simp [ht_create]; omega)
  unfold entries at this
  simp [resize, this, entries]

theorem inv_resized {ht : hashtable_t V} (hI : Inv ht) {n : Nat} (hn : 1 ≤ n) :
    Inv (addAll (entries ht) (ht_create n ht.type)) ∧
      ∀ k, find (addAll (entries ht) (ht_create n ht.type)) k = find ht k := by
  have hc : Inv (ht_create n ht.type : hashtable_t V) := inv_create n ht.type hn
  have hnd : (((entries ht).map tableentry_t.key) ++
      keys (ht_create n ht.type : hashtable_t V)).Nodup := by
    simpa [keys, entries_create] using hI.nodup
  obtain ⟨h1, h2⟩ := inv_addAll (entries ht) hc hnd
  refine ⟨h1, fun k => find_congr h1 hI (fun te => ?_) k⟩
  rw [h2.mem_iff, entries_create, List.append_nil]

theorem resized_size (ht : hashtable_t V) (n : Nat) :
    (addAll (entries ht) (ht_create n ht.type)).size = n := by
  rw [addAll_size, create_size]

theorem resized_load {ht : hashtable_t V} (hI : Inv ht) (n : Nat) :
    (addAll (entries ht) (ht_create n ht.type)).load = ht.load := by
  rw [addAll_load, hI.load_eq]
  simp [ht_create]

/-! ## `ht_insert` on a good table -/

theorem insert_result_present {ht : hashtable_t V} {k : Key} (v : V)
    (hf : (find ht k).isSome) : insert_result ht k v = setVal ht k v := by
  simp [insert_result, hf]

theorem insert_result_new_resize {ht : hashtable_t V} {k : Key} (v : V)
    (hf : find ht k = none) (hb : 3 * ht.size < 4 * (ht.load + 1)) :
    insert_result ht k v =
      addAll (entries (addNew ht k v)) (ht_create (ht.size * 2) ht.type) := by
  simp [insert_result, hf, hb]

theorem insert_result_new_noresize {ht : hashtable_t V} {k : Key} (v : V)
    (hf : find ht k = none) (hb : 4 * (ht.load + 1) ≤ 3 * ht.size) :
    insert_result ht k v = addNew ht k v := by
  simp [insert_result, hf, Nat.not_lt.2 hb]

theorem ht_insert_eq (fuel : Nat) {ht : hashtable_t V} (hG : Good ht) (k : Key) (v : V) :
    ht_insert (fuel + 2) ht k v = Outcome.ok (0, insert_result ht k v) := by
  have hI := hG.inv
  cases hf : find ht k with
  | some te =>
    have hs : (find ht k).isSome := by simp [hf]
    rw [insert_result_present v hs]
    exact ht_insert_present (fuel + 1) hI.size_pos v hs
  | none =>
    have hnp : ¬ present ht k := fun hp => by
      have := (find_isSome_iff hI k).2 hp
      simp [hf] at this
    by_cases hb : 3 * ht.size < 4 * (ht.load + 1)
    · rw [insert_result_new_resize v hf hb]
      apply ht_insert_new_resize (fuel + 1) hI.size_pos v hf hb
      have hI1 := inv_addNew hI v hnp
      have hsz := hI.size_pos
      have hbd := hG.bound
      have := resize_eq fuel hI1 (n := ht.size * 2) (by omega) (by rw [addNew_load]; omega)
      rw [this, addNew_type]
    · rw [insert_result_new_noresize v hf (by omega)]
      exact ht_insert_new_noresize (fuel + 1) hI.size_pos v hf (by omega)

theorem good_insert_result {ht : hashtable_t V} (hG : Good ht) (k : Key) (v : V) :
    Good (insert_result ht k v) := by
  have hI := hG.inv
  have hsz := hI.size_pos
  have hbd := hG.bound
  cases hf : find ht k with
  | some te =>
    have hs : (find ht k).isSome := by simp [hf]
    rw [insert_result_present v hs]
    refine ⟨inv_setVal hI k v, ?_⟩
    rw [setVal_size]
    exact hbd
  | none =>
    have hnp : ¬ present ht k := fun hp => by
      have := (find_isSome_iff hI k).2 hp
      simp [hf] at this
    have hI1 := inv_addNew hI v hnp
    by_cases hb : 3 * ht.size < 4 * (ht.load + 1)
    · rw [insert_result_new_resize v hf hb]
      have h1 := (inv_resized hI1 (n := ht.size * 2) (by omega)).1
      have h2 := resized_size (addNew ht k v) (ht.size * 2)
      have h3 := resized_load hI1 (ht.size * 2)
      rw [addNew_type] at h1 h2 h3
      refine ⟨h1, ?_⟩
      rw [h2, h3, addNew_load]
      omega
    · rw [insert_result_new_noresize v hf (by omega)]
      refine ⟨hI1, ?_⟩
      rw [addNew_size, addNew_load]
      omega

theorem find_insert_result {ht : hashtable_t V} (hG : Good ht) (k : Key) (v : V) (k1 : Key) :
    find (insert_result ht k v) k1 =
      if k1 = k then some { key := k, val := v } else find ht k1 := by
  have hI := hG.inv
  have hsz := hI.size_pos
  cases hf : find ht k with
  | some te =>
    have hs : (find ht k).isSome := by simp [hf]
    rw [insert_result_present v hs]
    exact find_setVal ht k v hsz hs k1
  | none =>
    have hnp : ¬ present ht k := fun hp => by
      have := (find_isSome_iff hI k).2 hp
      simp [hf] at this
    have hI1 := inv_addNew hI v hnp
    by_cases hb : 3 * ht.size < 4 * (ht.load + 1)
    · rw [insert_result_new_resize v hf hb]
      have h1 := (inv_resized hI1 (n := ht.size * 2) (by omega)).2 k1
      rw [addNew_type] at h1
      rw [h1]
      exact find_addNew ht k v hsz k1
    · rw [insert_result_new_noresize v hf (by omega)]
      exact find_addNew ht k v hsz k1

/-! ## `ht_delete` on a good table -/

theorem delete_te_eq {ht : hashtable_t V} (h : 1 ≤ ht.size) {k : Key} {te : tableentry_t V}
    (hf : find ht k = some te) :
    delete_te ht k = Outcome.ok (0, { type := ht.type, load := ht.load, tab := (dropKey ht k).tab }) := by
  have h0 : ht.size ≠ 0 := by omega
  unfold find at hf
  unfold delete_te dropKey
  simp only [h0, if_false]
  cases hc : ht.tab.getD (hash k % ht.size) [] with
  | nil => rw [hc] at hf; simp [lookup_chain] at hf
  | cons a next =>
    rw [hc] at hf
    by_cases ha : a.key = k
    · simp [ha, unlink]
    · have hmem : k ∈ (a :: next).map tableentry_t.key := by
        have := lookup_chain_some hf
        exact this.2 ▸ List.mem_map_of_mem _ this.1
      have hloop := delete_te_loop_eq k (a :: next) [] false
        (Or.inr (fun te1 n1 he => by
          have := (List.cons.inj he).1
          exact this ▸ ha))
      rw [if_pos hmem] at hloop
      simp only [ha, if_false, hloop, List.nil_append]

theorem ht_delete_absent (fuel : Nat) {ht : hashtable_t V} (h : 1 ≤ ht.size) {k : Key}
    (hf : find ht k = none) : ht_delete fuel ht k = Outcome.ok (-1, ht) := by
  simp [ht_delete, lookup_eq_find h, hf]

theorem ht_delete_present_noresize (fuel : Nat) {ht : hashtable_t V} (h : 1 ≤ ht.size)
    {k : Key} {te : tableentry_t V} (hf : find ht k = some te)
    (hb : ht.size ≤ 4 * (dropKey ht k).load) :
    ht_delete fuel ht k = Outcome.ok (0, dropKey ht k) := by
  have hs : (dropKey ht k).size = ht.size := dropKey_size ht k
  simp only [hashtable_t.size] at hs
  simp only [hashtable_t.size, dropKey] at hb
  simp [ht_delete, lookup_eq_find h, hf, delete_te_eq h hf, hashtable_t.size, hs,
    Nat.not_lt.2 hb, dropKey]

theorem ht_delete_present_resize (fuel : Nat) {ht : hashtable_t V} (h : 1 ≤ ht.size)
    {k : Key} {te : tableentry_t V} (hf : find ht k = some te)
    (hb : 4 * (dropKey ht k).load < ht.size) {res : hashtable_t V}
    (hr : resize (ht_insert fuel) (dropKey ht k) (ht.size / 2) = Outcome.ok (0, res)) :
    ht_delete fuel ht k = Outcome.ok (0, res) := by
  have hs : (dropKey ht k).size = ht.size := dropKey_size ht k
  simp only [hashtable_t.size] at hs
  simp only [hashtable_t.size, dropKey] at hb hr
  simp [-List.getD_eq_getElem?_getD, ht_delete, lookup_eq_find h, hf, delete_te_eq h hf,
    hashtable_t.size, hs, hb, hr, dropKey]

theorem delete_result_resize {ht : hashtable_t V} {k : Key}
    (hb : 4 * (dropKey ht k).load < ht.size) :
    delete_result ht k = addAll (entries (dropKey ht k)) (ht_create (ht.size / 2) ht.type) := by
  simp [delete_result, hb]

theorem delete_result_noresize {ht : hashtable_t V} {k : Key}
    (hb : ht.size ≤ 4 * (dropKey ht k).load) : delete_result ht k = dropKey ht k := by
  simp [delete_result, Nat.not_lt.2 hb]

theorem dropKey_type (ht : hashtable_t V) (k : Key) : (dropKey ht k).type = ht.type := rfl

theorem half_pos {ht : hashtable_t V} (hG : Good ht) {k : Key} {te : tableentry_t V}
    (hf : find ht k = some te) : 1 ≤ ht.size / 2 := by
  have h1 := (inv_dropKey hG.inv hf).2.1
  have h2 := hG.bound
  omega

theorem ht_delete_eq (fuel : Nat) {ht : hashtable_t V} (hG : Good ht) {k : Key}
    {te : tableentry_t V} (hf : find ht k = some te) :
    ht_delete (fuel + 1) ht k = Outcome.ok (0, delete_result ht k) := by
  have hI := hG.inv
  obtain ⟨hI1, hl, _⟩ := inv_dropKey hI hf
  by_cases hb : 4 * (dropKey ht k).load < ht.size
  · rw [delete_result_resize hb]
    apply ht_delete_present_resize (fuel + 1) hI.size_pos hf hb
    have := resize_eq fuel hI1 (half_pos hG hf) (by omega)
    rw [this, dropKey_type]
  · rw [delete_result_noresize (by omega)]
    exact ht_delete_present_noresize (fuel + 1) hI.size_pos hf (by omega)

theorem good_delete_result {ht : hashtable_t V} (hG : Good ht) {k : Key}
    {te : tableentry_t V} (hf : find ht k = some te) : Good (delete_result ht k) := by
  have hI := hG.inv
  have hbd := hG.bound
  obtain ⟨hI1, hl, _⟩ := inv_dropKey hI hf
  by_cases hb : 4 * (dropKey ht k).load < ht.size
  · rw [delete_result_resize hb]
    have h1 := (inv_resized hI1 (half_pos hG hf)).1
    have h2 := resized_size (dropKey ht k) (ht.size / 2)
    have h3 := resized_load hI1 (ht.size / 2)
    rw [dropKey_type] at h1 h2 h3
    refine ⟨h1, ?_⟩
    rw [h2, h3]
    omega
  · rw [delete_result_noresize (by omega)]
    refine ⟨hI1, ?_⟩
    rw [dropKey_size]
    omega

theorem find_delete_result {ht : hashtable_t V} (hG : Good ht) {k : Key}
    {te : tableentry_t V} (hf : find ht k = some te) (k1 : Key) :
    find (delete_result ht k) k1 = if k1 = k then none else find ht k1 := by
  have hI := hG.inv
  obtain ⟨hI1, hl, _⟩ := inv_dropKey hI hf
  by_cases hb : 4 * (dropKey ht k).load < ht.size
  · rw [delete_result_resize hb]
    have h1 := (inv_resized hI1 (half_pos hG hf)).2 k1
    rw [dropKey_type] at h1
    rw [h1]
    exact find_dropKey hI hf k1
  · rw [delete_result_noresize (by omega)]
    exact find_dropKey hI hf k1

theorem load_delete_result {ht : hashtable_t V} (hG : Good ht) {k : Key}
    {te : tableentry_t V} (hf : find ht k = some te) :
    (delete_result ht k).load + 1 = ht.load := by
  obtain ⟨hI1, hl, _⟩ := inv_dropKey hG.inv hf
  by_cases hb : 4 * (dropKey ht k).load < ht.size
  · rw [delete_result_resize hb]
    have h3 := resized_load hI1 (ht.size / 2)
    rw [dropKey_type] at h3
    rw [h3]
    exact hl
  · rw [delete_result_noresize (by omega)]
    exact hl

/-! ## More fuel does not change a result -/

theorem rehash_mono {ins ins1 : hashtable_t V → Key → V → Outcome (Int × hashtable_t V)}
    (h : ∀ t k v x, ins t k v = Outcome.ok x → ins1 t k v = Outcome.ok x)
    (es : List (tableentry_t V)) (nht : hashtable_t V) (y : Option (hashtable_t V))
    (hy : rehash ins es nht = Outcome.ok y) : rehash ins1 es nht = Outcome.ok y := by
  induction es generalizing nht with
  | nil => exact hy
  | cons e rest ih =>
    rw [rehash] at hy ⊢
    cases hi : ins nht e.key e.val with
    | ok x =>
      rw [hi] at hy
      rw [h _ _ _ _ hi]
      obtain ⟨r, nht1⟩ := x
      simp only at hy ⊢
      by_cases hr : r < 0
      · rw [if_pos hr] at hy ⊢; exact hy
      · rw [if_neg hr] at hy ⊢; exact ih nht1 hy
    | undefined => rw [hi] at hy; cases hy
    | outOfFuel => rw [hi] at hy; cases hy

theorem resize_mono {ins ins1 : hashtable_t V → Key → V → Outcome (Int × hashtable_t V)}
    (h : ∀ t k v x, ins t k v = Outcome.ok x → ins1 t k v = Outcome.ok x)
    (ht : hashtable_t V) (n : Nat) (y : Int × hashtable_t V)
    (hy : resize ins ht n = Outcome.ok y) : resize ins1 ht n = Outcome.ok y := by
  unfold resize at hy ⊢
  cases hr : rehash ins ht.tab.flatten (ht_create n ht.type) with
  | ok z => rw [rehash_mono h _ _ z hr]; rw [hr] at hy; exact hy
  | undefined => rw [hr] at hy; cases hy
  | outOfFuel => rw [hr] at hy; cases hy

theorem ht_insert_mono (fuel : Nat) :
    ∀ (ht : hashtable_t V) (k : Key) (v : V) (x : Int × hashtable_t V),
      ht_insert fuel ht k v = Outcome.ok x → ht_insert (fuel + 1) ht k v = Outcome.ok x := by
  induction fuel with
  | zero => intro ht k v x h; simp [ht_insert] at h
  | succ n ih =>
    intro ht k v x h
    rw [ht_insert] at h ⊢
    cases hl : lookup ht k with
    | undefined => rw [hl] at h; cases h
    | outOfFuel => rw [hl] at h; cases h
    | ok o =>
      rw [hl] at h
      cases o with
      | some te => exact h
      | none =>
        simp only at h ⊢
        cases hi : insert_te ht k v with
        | undefined => rw [hi] at h; cases h
        | outOfFuel => rw [hi] at h; cases h
        | ok p =>
          obtain ⟨r, ht1⟩ := p
          rw [hi] at h
          simp only at h ⊢
          by_cases hr : r < 0
          · rw [if_pos hr] at h ⊢; exact h
          · rw [if_neg hr] at h ⊢
            by_cases hb : 4 * (ht1.load + 1) > 3 * hashtable_t.size { ht1 with load := ht1.load + 1 }
            · rw [if_pos hb] at h ⊢
              cases hz : resize (ht_insert n) { ht1 with load := ht1.load + 1 }
                  (hashtable_t.size { ht1 with load := ht1.load + 1 } * 2) with
              | ok q => rw [resize_mono ih _ _ q hz]; rw [hz] at h; exact h
              | undefined => rw [hz] at h; cases h
              | outOfFuel => rw [hz] at h; cases h
            · rw [if_neg hb] at h ⊢; exact h

theorem ht_insert_mono_add (fuel extra : Nat) (ht : hashtable_t V) (k : Key) (v : V)
    (x : Int × hashtable_t V) (h : ht_insert fuel ht k v = Outcome.ok x) :
    ht_insert (fuel + extra) ht k v = Outcome.ok x := by
  induction extra with
  | zero => exact h
  | succ n ih => exact ht_insert_mono (fuel + n) ht k v x ih

theorem ht_delete_mono_add (fuel extra : Nat) (ht : hashtable_t V) (k : Key)
    (x : Int × hashtable_t V) (h : ht_delete fuel ht k = Outcome.ok x) :
    ht_delete (fuel + extra) ht k = Outcome.ok x := by
  unfold ht_delete at h ⊢
  cases hl : lookup ht k with
  | undefined => rw [hl] at h; cases h
  | outOfFuel => rw [hl] at h; cases h
  | ok o =>
    rw [hl] at h
    cases o with
    | none => exact h
    | some te =>
      simp only at h ⊢
      cases hi : delete_te ht k with
      | undefined => rw [hi] at h; cases h
      | outOfFuel => rw [hi] at h; cases h
      | ok p =>
        obtain ⟨r, ht1⟩ := p
        rw [hi] at h
        simp only at h ⊢
        by_cases hr : r < 0
        · rw [if_pos hr] at h ⊢; exact h
        · rw [if_neg hr] at h ⊢
          by_cases hb : 4 * decr_load ht1.load <
              hashtable_t.size { ht1 with load := decr_load ht1.load }
          · rw [if_pos hb] at h ⊢
            cases hz : resize (ht_insert fuel) { ht1 with load := decr_load ht1.load }
                (hashtable_t.size { ht1 with load := decr_load ht1.load } / 2) with
            | ok q =>
              rw [resize_mono (fun t k v x hx => ht_insert_mono_add fuel extra t k v x hx) _ _ q hz]
              rw [hz] at h; exact h
            | undefined => rw [hz] at h; cases h
            | outOfFuel => rw [hz] at h; cases h
          · rw [if_neg hb] at h ⊢; exact h

/-! ## Every reachable table is good -/

theorem good_create (n : Nat) (kind : datatype_t) (hn : 1 ≤ n) :
    Good (ht_create n kind : hashtable_t V) :=
  ⟨inv_create n kind hn, by simp [ht_create]⟩

theorem good_of_insert {ht ht1 : hashtable_t V} (hG : Good ht) {fuel : Nat} {k : Key} {v : V}
    {r : Int} (h : ht_insert fuel ht k v = Outcome.ok (r, ht1)) :
    r = 0 ∧ ht1 = insert_result ht k v := by
  have h1 := ht_insert_mono_add fuel 2 ht k v _ h
  have h2 := ht_insert_eq fuel hG k v
  rw [Nat.add_comm] at h1
  rw [Nat.add_comm fuel 2] at h2
  rw [h1] at h2
  injection h2 with h3
  injection h3 with h4 h5
  exact ⟨h4, h5⟩

theorem good_of_delete {ht ht1 : hashtable_t V} (hG : Good ht) {fuel : Nat} {k : Key}
    {r : Int} (h : ht_delete fuel ht k = Outcome.ok (r, ht1)) :
    (find ht k = none ∧ r = -1 ∧ ht1 = ht) ∨
      ((find ht k).isSome ∧ r = 0 ∧ ht1 = delete_result ht k) := by
  cases hf : find ht k with
  | none =>
    left
    have h2 := ht_delete_absent fuel hG.inv.size_pos hf
    rw [h] at h2
    injection h2 with h3
    injection h3 with h4 h5
    exact ⟨rfl, h4, h5⟩
  | some te =>
    right
    have h1 := ht_delete_mono_add fuel 1 ht k _ h
    have h2 := ht_delete_eq fuel hG hf
    rw [h1] at h2
    injection h2 with h3
    injection h3 with h4 h5
    exact ⟨rfl, h4, h5⟩

theorem good_of_reachable {ht : hashtable_t V} (h : Reachable ht) : Good ht := by
  induction h with
  | create n kind hn => exact good_create n kind hn
  | insert fuel k v r _ h ih =>
    rw [(good_of_insert ih h).2]
    exact good_insert_result ih k v
  | delete fuel k r _ h ih =>
    rcases good_of_delete ih h with ⟨_, _, h3⟩ | ⟨h1, _, h3⟩
    · rw [h3]; exact ih
    · obtain ⟨te, hte⟩ := Option.isSome_iff_exists.1 h1
      rw [h3]
      exact good_delete_result ih hte

theorem find_of_present {ht : hashtable_t V} (hI : Inv ht) {k : Key} (hp : present ht k) :
    ∃ te, find ht k = some te :=
  Option.isSome_iff_exists.1 ((find_isSome_iff hI k).2 hp)

theorem find_none_of_absent {ht : hashtable_t V} {k : Key} (hp : ¬ present ht k) :
    find ht k = none := find_none_of_not_present hp

theorem ht_get_insert_result {ht : hashtable_t V} (hG : Good ht) (k : Key) (v : V) (k1 : Key) :
    ht_get (insert_result ht k v) k1 =
      if k1 = k then Outcome.ok (some v) else ht_get ht k1 := by
  rw [ht_get_eq_find (good_insert_result hG k v).inv.size_pos, find_insert_result hG,
    ht_get_eq_find hG.inv.size_pos]
  by_cases h : k1 = k <;> simp [h]

theorem ht_get_delete_result {ht : hashtable_t V} (hG : Good ht) {k : Key}
    {te : tableentry_t V} (hf : find ht k = some te) (k1 : Key) :
    ht_get (delete_result ht k) k1 = if k1 = k then Outcome.ok none else ht_get ht k1 := by
  rw [ht_get_eq_find (good_delete_result hG hf).inv.size_pos, find_delete_result hG hf,
    ht_get_eq_find hG.inv.size_pos]
  by_cases h : k1 = k <;> simp [h]

theorem insert_result_new_shape {ht : hashtable_t V} (hG : Good ht) {k : Key} (v : V)
    (hp : ¬ present ht k) :
    (insert_result ht k v).load = ht.load + 1 ∧
      (insert_result ht k v).size =
        if 4 * (ht.load + 1) > 3 * ht.size then 2 * ht.size else ht.size := by
  have hf := find_none_of_absent hp
  have hI1 := inv_addNew hG.inv v hp
  by_cases hb : 3 * ht.size < 4 * (ht.load + 1)
  · rw [insert_result_new_resize v hf hb, if_pos hb]
    have h2 := resized_size (addNew ht k v) (ht.size * 2)
    have h3 := resized_load hI1 (ht.size * 2)
    rw [addNew_type] at h2 h3
    rw [h2, h3, addNew_load]
    exact ⟨rfl, Nat.mul_comm _ _⟩
  · rw [insert_result_new_noresize v hf (by omega), if_neg hb, addNew_load, addNew_size]
    exact ⟨rfl, rfl⟩

theorem delete_result_size {ht : hashtable_t V} (hG : Good ht) {k : Key}
    {te : tableentry_t V} (hf : find ht k = some te) :
    (delete_result ht k).size =
      if 4 * (ht.load - 1) < ht.size then ht.size / 2 else ht.size := by
  obtain ⟨_, hl, _⟩ := inv_dropKey hG.inv hf
  have hl1 : (dropKey ht k).load = ht.load - 1 := by omega
  by_cases hb : 4 * (dropKey ht k).load < ht.size
  · have h2 := resized_size (dropKey ht k) (ht.size / 2)
    rw [dropKey_type] at h2
    rw [delete_result_resize hb, h2]
    rw [hl1] at hb
    rw [if_pos hb]
  · rw [delete_result_noresize (by omega), dropKey_size]
    rw [hl1] at hb
    rw [if_neg hb]

theorem reachable_abc : Reachable scenario_abc := by
  have h0 : Reachable (ht_create 4 datatype_t.INTEGER : hashtable_t Int) :=
    Reachable.create 4 datatype_t.INTEGER (by decide)
  have h1 : Reachable scenario_a := Reachable.insert 1 key_a 1 0 h0 (by decide)
  have h2 : Reachable scenario_ab := Reachable.insert 1 key_b 2 0 h1 (by decide)
  exact Reachable.insert 1 key_c 3 0 h2 (by decide)

theorem reachable_ab8 : Reachable scenario_ab8 := by
  have h0 : Reachable (ht_create 8 datatype_t.INTEGER : hashtable_t Int) :=
    Reachable.create 8 datatype_t.INTEGER (by decide)
  have h1 : Reachable scenario_a8 := Reachable.insert 1 key_a 1 0 h0 (by decide)
  exact Reachable.insert 1 key_b 2 0 h1 (by decide)

theorem reachable_abi8 : Reachable scenario_abi8 :=
  Reachable.insert 1 key_i 5 0 reachable_ab8 (by decide)

/-! ## The claims -/

/-- C1 (round trip): on every reachable table, for every key `k` and value `v`,
`ht_insert(k, v)` returns 0, with one resulting table for every fuel of at
least 2, and `ht_get(k)` on that table yields `v`; `k` may be new or present,
and the insert may or may not resize. -/
theorem C1_insert_then_get (ht : hashtable_t V) (hr : Reachable ht) (k : Key) (v : V) :
    ∃ ht1, (∀ fuel, ht_insert (fuel + 2) ht k v = Outcome.ok (0, ht1)) ∧
      ht_get ht1 k = Outcome.ok (some v) := by
  have hG := good_of_reachable hr
  refine ⟨insert_result ht k v, fun fuel => ht_insert_eq fuel hG k v, ?_⟩
  rw [ht_get_insert_result hG, if_pos rfl]

/-- C1 at the table holding "a", "b", "c" in 4 buckets and the new key "d",
whose insert doubles the table. -/
theorem C1_insert_then_get_witness :
    Reachable scenario_abc ∧
      ∃ ht1, (∀ fuel, ht_insert (fuel + 2) scenario_abc key_d 4 = Outcome.ok (0, ht1)) ∧
        ht_get ht1 key_d = Outcome.ok (some 4) :=
  ⟨reachable_abc, C1_insert_then_get scenario_abc reachable_abc key_d 4⟩

/-- C2 (insert preserves the other entries): on every reachable table, for every
key `k`, value `v` and key `k1` different from `k`, `ht_get(k1)` after
`ht_insert(k, v)` equals `ht_get(k1)` before it, resize or not. -/
theorem C2_insert_frame (ht : hashtable_t V) (hr : Reachable ht) (k : Key) (v : V)
    (k1 : Key) (hne : k1 ≠ k) :
    ∃ ht1, (∀ fuel, ht_insert (fuel + 2) ht k v = Outcome.ok (0, ht1)) ∧
      ht_get ht1 k1 = ht_get ht k1 := by
  have hG := good_of_reachable hr
  refine ⟨insert_result ht k v, fun fuel => ht_insert_eq fuel hG k v, ?_⟩
  rw [ht_get_insert_result hG, if_neg hne]

/-- C2 at the doubling insert of "d" into the table of "a", "b", "c", read at "a". -/
theorem C2_insert_frame_witness :
    Reachable scenario_abc ∧ key_a ≠ key_d ∧
      ∃ ht1, (∀ fuel, ht_insert (fuel + 2) scenario_abc key_d 4 = Outcome.ok (0, ht1)) ∧
        ht_get ht1 key_a = ht_get scenario_abc key_a :=
  ⟨reachable_abc, by decide,
    C2_insert_frame scenario_abc reachable_abc key_d 4 key_a (by decide)⟩

/-- C3 (deletion): on every reachable table, for every present key `k`,
`ht_delete(k)` returns 0, with one resulting table for every fuel of at least 1;
`ht_get(k)` on it reports not found and its load is the previous load minus 1,
shrinking resize or not. -/
theorem C3_delete_correct (ht : hashtable_t V) (hr : Reachable ht) (k : Key)
    (hp : present ht k) :
    ∃ ht1, (∀ fuel, ht_delete (fuel + 1) ht k = Outcome.ok (0, ht1)) ∧
      ht_get ht1 k = Outcome.ok none ∧ ht1.load + 1 = ht.load := by
  have hG := good_of_reachable hr
  obtain ⟨te, hf⟩ := find_of_present hG.inv hp
  refine ⟨delete_result ht k, fun fuel => ht_delete_eq fuel hG hf, ?_, load_delete_result hG hf⟩
  rw [ht_get_delete_result hG hf, if_pos rfl]

/-- C3 at the table of "a", "b" in 8 buckets: deleting "a" halves the table. -/
theorem C3_delete_correct_witness :
    Reachable scenario_ab8 ∧ present scenario_ab8 key_a ∧
      ∃ ht1, (∀ fuel, ht_delete (fuel + 1) scenario_ab8 key_a = Outcome.ok (0, ht1)) ∧
        ht_get ht1 key_a = Outcome.ok none ∧ ht1.load + 1 = scenario_ab8.load :=
  ⟨reachable_ab8, by decide, C3_delete_correct scenario_ab8 reachable_ab8 key_a (by decide)⟩

/-- C4 (delete preserves the other entries): on every reachable table, for every
present key `k` and every key `k1` different from `k`, `ht_get(k1)` after
`ht_delete(k)` equals `ht_get(k1)` before it, wherever `k` sat in its chain and
whether or not the table was halved. -/
theorem C4_delete_frame (ht : hashtable_t V) (hr : Reachable ht) (k : Key)
    (hp : present ht k) (k1 : Key) (hne : k1 ≠ k) :
    ∃ ht1, (∀ fuel, ht_delete (fuel + 1) ht k = Outcome.ok (0, ht1)) ∧
      ht_get ht1 k1 = ht_get ht k1 := by
  have hG := good_of_reachable hr
  obtain ⟨te, hf⟩ := find_of_present hG.inv hp
  refine ⟨delete_result ht k, fun fuel => ht_delete_eq fuel hG hf, ?_⟩
  rw [ht_get_delete_result hG hf, if_neg hne]

/-- C4 at the table whose bucket 1 holds "i" then "a": deleting the tail "a",
read at the head "i". -/
theorem C4_delete_frame_witness :
    Reachable scenario_abi8 ∧ present scenario_abi8 key_a ∧ key_i ≠ key_a ∧
      ∃ ht1, (∀ fuel, ht_delete (fuel + 1) scenario_abi8 key_a = Outcome.ok (0, ht1)) ∧
        ht_get ht1 key_i = ht_get scenario_abi8 key_i :=
  ⟨reachable_abi8, by decide, by decide,
    C4_delete_frame scenario_abi8 reachable_abi8 key_a (by decide) key_i (by decide)⟩

/-- C5 (re-insert): on every reachable table, for every present key `k`,
`ht_insert(k, v)` returns 0 with fuel 1 already (no resize), leaves load and
capacity unchanged and every chain with the same sequence of keys; the bucket
array is the old one with `v` as the value of the entry of key `k`. -/
theorem C5_reinsert_updates_in_place (ht : hashtable_t V) (hr : Reachable ht) (k : Key)
    (v : V) (hp : present ht k) :
    ∃ ht1, (∀ fuel, ht_insert (fuel + 1) ht k v = Outcome.ok (0, ht1)) ∧
      ht1.load = ht.load ∧ ht1.size = ht.size ∧
      ht1.tab.map (fun c => c.map tableentry_t.key) =
        ht.tab.map (fun c => c.map tableentry_t.key) ∧
      ht1.tab = ht.tab.map (fun c =>
        c.map (fun te => if te.key = k then { te with val := v } else te)) := by
  have hG := good_of_reachable hr
  have hs := (find_isSome_iff hG.inv k).2 hp
  refine ⟨setVal ht k v, fun fuel => ht_insert_present fuel hG.inv.size_pos v hs, rfl,
    setVal_size ht k v, ?_, setVal_tab hG.inv k v⟩
  rw [setVal_tab hG.inv k v, List.map_map]
  apply List.map_congr_left
  intro c _
  simp only [Function.comp, List.map_map]
  apply List.map_congr_left
  intro te _
  by_cases h : te.key = k <;> simp [h]

/-- C5 at the table whose bucket 1 holds "i" then "a", re-inserting "a". -/
theorem C5_reinsert_updates_in_place_witness :
    Reachable scenario_abi8 ∧ present scenario_abi8 key_a ∧
      ∃ ht1, (∀ fuel, ht_insert (fuel + 1) scenario_abi8 key_a 7 = Outcome.ok (0, ht1)) ∧
        ht1.load = scenario_abi8.load ∧ ht1.size = scenario_abi8.size ∧
        ht1.tab.map (fun c => c.map tableentry_t.key) =
          scenario_abi8.tab.map (fun c => c.map tableentry_t.key) ∧
        ht1.tab = scenario_abi8.tab.map (fun c =>
          c.map (fun te => if te.key = key_a then { te with val := 7 } else te)) :=
  ⟨reachable_abi8, by decide,
    C5_reinsert_updates_in_place scenario_abi8 reachable_abi8 key_a 7 (by decide)⟩

/-- C6 (delete of an absent key): on every table with at least one bucket, for
every key `k` that no entry holds, `ht_delete(k)` returns -1 and leaves the table
as it was, for every fuel (so no `resize` ran). -/
theorem C6_delete_absent (ht : hashtable_t V) (hs : 1 ≤ ht.size) (k : Key)
    (hp : ¬ present ht k) (fuel : Nat) :
    ht_delete fuel ht k = Outcome.ok (-1, ht) :=
  ht_delete_absent fuel hs (find_none_of_absent hp)

/-- C6 at the table of "a", "b", "c" and the absent key "d". -/
theorem C6_delete_absent_witness :
    1 ≤ scenario_abc.size ∧ ¬ present scenario_abc key_d ∧
      ht_delete 0 scenario_abc key_d = Outcome.ok (-1, scenario_abc) :=
  ⟨by decide, by decide, C6_delete_absent scenario_abc (by decide) key_d (by decide) 0⟩

/-- C7 (capacity stays positive): every reachable table has capacity > 0, and
whenever a key is present, so that `ht_delete` can reach its `resize` call, the
target capacity `size / 2` is > 0. -/
theorem C7_capacity_positive (ht : hashtable_t V) (hr : Reachable ht) :
    0 < ht.size ∧ ∀ k, present ht k → 0 < ht.size / 2 := by
  have hG := good_of_reachable hr
  refine ⟨hG.inv.size_pos, fun k hp => ?_⟩
  obtain ⟨te, hf⟩ := find_of_present hG.inv hp
  exact half_pos hG hf

/-- C7 at the table of "a", "b" in 8 buckets. -/
theorem C7_capacity_positive_witness :
    Reachable scenario_ab8 ∧ 0 < scenario_ab8.size ∧
      ∀ k, present scenario_ab8 k → 0 < scenario_ab8.size / 2 :=
  ⟨reachable_ab8, C7_capacity_positive scenario_ab8 reachable_ab8⟩

/-- C8 (growth trigger): on every reachable table of capacity `c` and load `l`,
for every key `k` that is not present, `ht_insert(k, v)` returns 0 and leaves
load `l + 1` and capacity `2 * c` if `4 * (l + 1) > 3 * c`, capacity `c` otherwise. -/
theorem C8_growth_trigger (ht : hashtable_t V) (hr : Reachable ht) (k : Key) (v : V)
    (hp : ¬ present ht k) :
    ∃ ht1, (∀ fuel, ht_insert (fuel + 2) ht k v = Outcome.ok (0, ht1)) ∧
      ht1.load = ht.load + 1 ∧
      ht1.size = if 4 * (ht.load + 1) > 3 * ht.size then 2 * ht.size else ht.size := by
  have hG := good_of_reachable hr
  exact ⟨insert_result ht k v, fun fuel => ht_insert_eq fuel hG k v,
    insert_result_new_shape hG v hp⟩

/-- C8 at capacity 4 holding three keys: the insert of a fourth gives load 4 and
capacity 8. -/
theorem C8_growth_trigger_witness :
    Reachable scenario_abc ∧ ¬ present scenario_abc key_d ∧
      ∃ ht1, (∀ fuel, ht_insert (fuel + 2) scenario_abc key_d 4 = Outcome.ok (0, ht1)) ∧
        ht1.load = 4 ∧ ht1.size = 8 := by
  obtain ⟨ht1, h1, h2, h3⟩ :=
    C8_growth_trigger scenario_abc reachable_abc key_d 4 (by decide)
  exact ⟨reachable_abc, by decide, ht1, h1, h2, h3⟩

/-- C9 (shrink trigger): on every reachable table of capacity `c` and load `l`,
for every present key `k`, `ht_delete(k)` returns 0 and leaves capacity
`c / 2` (rounded down) if `4 * (l - 1) < c`, capacity `c` otherwise. -/
theorem C9_shrink_trigger (ht : hashtable_t V) (hr : Reachable ht) (k : Key)
    (hp : present ht k) :
    ∃ ht1, (∀ fuel, ht_delete (fuel + 1) ht k = Outcome.ok (0, ht1)) ∧
      ht1.size = if 4 * (ht.load - 1) < ht.size then ht.size / 2 else ht.size := by
  have hG := good_of_reachable hr
  obtain ⟨te, hf⟩ := find_of_present hG.inv hp
  exact ⟨delete_result ht k, fun fuel => ht_delete_eq fuel hG hf, delete_result_size hG hf⟩

/-- C9 at capacity 8 with load 2: one delete gives capacity 4. -/
theorem C9_shrink_trigger_witness :
    Reachable scenario_ab8 ∧ present scenario_ab8 key_a ∧
      ∃ ht1, (∀ fuel, ht_delete (fuel + 1) scenario_ab8 key_a = Outcome.ok (0, ht1)) ∧
        ht1.size = 4 := by
  obtain ⟨ht1, h1, h2⟩ := C9_shrink_trigger scenario_ab8 reachable_ab8 key_a (by decide)
  exact ⟨reachable_ab8, by decide, ht1, h1, h2⟩

/-- C10 (load factor upper bound): every reachable table has
`load <= 0.75 * capacity`, that is `4 * load <= 3 * capacity`. -/
theorem C10_load_upper_bound (ht : hashtable_t V) (hr : Reachable ht) :
    4 * ht.load ≤ 3 * ht.size :=
  (good_of_reachable hr).bound

/-- C10 at the table of "a", "b", "c" in 4 buckets, where the bound is met. -/
theorem C10_load_upper_bound_witness :
    Reachable scenario_abc ∧ 4 * scenario_abc.load ≤ 3 * scenario_abc.size :=
  ⟨reachable_abc, C10_load_upper_bound scenario_abc reachable_abc⟩

/-! ## The hash value -/

theorem hash_step_cast (acc : Nat) (b : Int) :
    ((hash_step acc b : Nat) : Int) = (b + 31 * (acc : Int)) % (2 ^ 32 : Int) := by
  unfold hash_step
  exact Int.toNat_of_nonneg (Int.emod_nonneg _ (by norm_num))

theorem foldl_hash_step_modEq (s : Key) (acc : Nat) :
    Int.ModEq (2 ^ 32) ((s.foldl hash_step acc : Nat) : Int)
      ((acc : Int) * 31 ^ s.length + hash_poly s) := by
  induction s generalizing acc with
  | nil => simp [hash_poly, Int.ModEq]
  | cons b rest ih =>
    simp only [List.foldl_cons, List.length_cons, hash_poly]
    refine (ih (hash_step acc b)).trans ?_
    have h1 : Int.ModEq (2 ^ 32) ((hash_step acc b : Nat) : Int) (b + 31 * (acc : Int)) := by
      rw [hash_step_cast]
      exact Int.mod_modEq _ _
    have h2 := (h1.mul_right (31 ^ rest.length)).add_right (hash_poly rest)
    refine h2.trans ?_
    have : (b + 31 * (acc : Int)) * 31 ^ rest.length + hash_poly rest =
        (acc : Int) * 31 ^ (rest.length + 1) + (b * 31 ^ rest.length + hash_poly rest) := by
      ring
    rw [this]

theorem foldl_hash_step_lt (s : Key) (acc : Nat) (h : acc < 2 ^ 32) :
    s.foldl hash_step acc < 2 ^ 32 := by
  induction s generalizing acc with
  | nil => exact h
  | cons b rest ih =>
    simp only [List.foldl_cons]
    apply ih
    have h1 := hash_step_cast acc b
    have h2 : (b + 31 * (acc : Int)) % (2 ^ 32 : Int) < 2 ^ 32 :=
      Int.emod_lt_of_pos _ (by norm_num)
    omega

theorem hash_eq_poly (s : Key) : ((hash s : Nat) : Int) = hash_poly s % (2 ^ 32 : Int) := by
  have h1 := foldl_hash_step_modEq s 0
  have h2 := foldl_hash_step_lt s 0 (by norm_num)
  unfold Int.ModEq at h1
  simp only [Nat.cast_zero, zero_mul, zero_add] at h1
  rw [← h1]
  unfold hash
  exact (Int.emod_eq_of_lt (by omega) (by omega)).symm

/-! ## Lemmas for the invariants and for `delete_te` -/

theorem resize_eq_of_counts (fuel : Nat) {ht : hashtable_t V} (hnd : (keys ht).Nodup)
    (hl : ht.load = (entries ht).length) {n : Nat} (hn : 1 ≤ n) (hb : 4 * ht.load ≤ 3 * n) :
    resize (ht_insert (fuel + 1)) ht n =
        Outcome.ok (0, addAll (entries ht) (ht_create n ht.type)) ∧
      (addAll (entries ht) (ht_create n ht.type)).load = ht.load ∧
      (addAll (entries ht) (ht_create n ht.type)).load =
        (entries (addAll (entries ht) (ht_create n ht.type))).length := by
  have hc : Inv (ht_create n ht.type : hashtable_t V) := inv_create n ht.type hn
  have hnd1 : (((entries ht).map tableentry_t.key) ++
      keys (ht_create n ht.type : hashtable_t V)).Nodup := by
    simpa [keys, entries_create] using hnd
  have h1 := rehash_eq fuel (entries ht) hc hnd1
    (by rw [create_size, ← hl]; simp [ht_create]; omega)
  have h2 := inv_addAll (entries ht) hc hnd1
  have h3 : (addAll (entries ht) (ht_create n ht.type)).load = ht.load := by
    rw [addAll_load, hl]; simp [ht_create]
  refine ⟨?_, h3, ?_⟩
  · unfold entries at h1
    simp [resize, h1, entries]
  · exact h2.1.load_eq

theorem lookup_chain_split {k : Key} {c : List (tableentry_t V)} {te : tableentry_t V}
    (h : lookup_chain k c = some te) :
    ∃ pre post, c = pre ++ te :: post ∧ (∀ e ∈ pre, e.key ≠ k) ∧ unlink k c = pre ++ post := by
  induction c with
  | nil => simp [lookup_chain] at h
  | cons a next ih =>
    by_cases ha : a.key = k
    · simp [lookup_chain, ha] at h
      subst h
      exact ⟨[], next, rfl, by simp, by simp [unlink, ha]⟩
    · simp [lookup_chain, ha] at h
      obtain ⟨pre, post, h1, h2, h3⟩ := ih h
      refine ⟨a :: pre, post, by rw [h1]; rfl, ?_, by simp [unlink, ha, h3]⟩
      intro e he
      rcases List.mem_cons.1 he with rfl | he1
      · exact ha
      · exact h2 e he1

theorem find_of_present_placed {ht : hashtable_t V}
    (hpl : ∀ i, ∀ te ∈ ht.tab.getD i [], hash te.key % ht.size = i) {k : Key}
    (hp : present ht k) : ∃ te, find ht k = some te := by
  obtain ⟨te, hte, rfl⟩ := List.mem_map.1 hp
  obtain ⟨i, _, hi⟩ := getD_of_mem_flatten hte
  have hb := hpl i te hi
  cases hf : find ht te.key with
  | some x => exact ⟨x, rfl⟩
  | none =>
    rw [find, lookup_chain_none_iff, hb] at hf
    exact absurd (List.mem_map_of_mem _ hi) hf

theorem delete_te_other_buckets (ht : hashtable_t V) (k : Key) (r : Int) (ht1 : hashtable_t V)
    (h : delete_te ht k = Outcome.ok (r, ht1)) (j : Nat) (hj : j ≠ hash k % ht.size) :
    ht1.tab.getD j [] = ht.tab.getD j [] := by
  unfold delete_te at h
  by_cases h0 : ht.size = 0
  · simp [h0] at h
  · simp only [h0, if_false] at h
    cases hc : ht.tab.getD (hash k % ht.size) [] with
    | nil => rw [hc] at h; cases h
    | cons a next =>
      rw [hc] at h
      simp only at h
      by_cases ha : a.key = k
      · rw [if_pos ha] at h
        injection h with h1
        injection h1 with _ h2
        rw [← h2]
        show (ht.tab.set _ next).getD j [] = _
        rw [getD_set_tab, if_neg (fun hh => hj hh.1.symm)]
      · rw [if_neg ha] at h
        cases hd : delete_te_loop k false [] (a :: next) with
        | undefined => rw [hd] at h; cases h
        | outOfFuel => rw [hd] at h; cases h
        | ok o =>
          rw [hd] at h
          cases o with
          | none =>
            injection h with h1
            injection h1 with _ h2
            rw [← h2]
          | some chain =>
            injection h with h1
            injection h1 with _ h2
            rw [← h2]
            show (ht.tab.set _ chain).getD j [] = _
            rw [getD_set_tab, if_neg (fun hh => hj hh.1.symm)]

theorem lookup_chain_append (k : Key) (pre post : List (tableentry_t V)) (te : tableentry_t V)
    (hk : te.key = k) (hpre : ∀ e ∈ pre, e.key ≠ k) :
    lookup_chain k (pre ++ te :: post) = some te ∧ unlink k (pre ++ te :: post) = pre ++ post := by
  induction pre with
  | nil => simp [lookup_chain, unlink, hk]
  | cons a rest ih =>
    have ha : a.key ≠ k := hpre a (List.mem_cons_self _ _)
    have ih1 := ih (fun e he => hpre e (List.mem_cons_of_mem _ he))
    simp [lookup_chain, unlink, ha, ih1.1, ih1.2]

theorem delete_te_empty (ht : hashtable_t V) (k : Key)
    (hb : ht.tab.getD (hash k % ht.size) [] = []) : delete_te ht k = Outcome.undefined := by
  unfold delete_te
  by_cases h0 : ht.size = 0
  · simp [h0]
  · simp only [h0, if_false, hb]

theorem delete_te_not_found (ht : hashtable_t V) (k : Key) (hs : 1 ≤ ht.size)
    (hne : ht.tab.getD (hash k % ht.size) [] ≠ [])
    (hb : ∀ e ∈ ht.tab.getD (hash k % ht.size) [], e.key ≠ k) :
    delete_te ht k = Outcome.ok (-1, ht) := by
  have h0 : ht.size ≠ 0 := by omega
  unfold delete_te
  simp only [h0, if_false]
  cases hc : ht.tab.getD (hash k % ht.size) [] with
  | nil => exact absurd hc hne
  | cons a next =>
    rw [hc] at hb
    have ha : a.key ≠ k := hb a (List.mem_cons_self _ _)
    have hmem : k ∉ (a :: next).map tableentry_t.key := by
      intro hm
      obtain ⟨e, he, hek⟩ := List.mem_map.1 hm
      exact hb e he hek
    have hloop := delete_te_loop_eq k (a :: next) [] false
      (Or.inr (fun te1 n1 he => by
        have := (List.cons.inj he).1
        exact this ▸ ha))
    rw [if_neg hmem] at hloop
    simp only [ha, if_false, hloop]

theorem insert_te_eq (ht : hashtable_t V) (k : Key) (v : V) (h : 1 ≤ ht.size) :
    insert_te ht k v = Outcome.ok (0, { type := ht.type, load := ht.load, tab := (addNew ht k v).tab }) := by
  have h0 : ht.size ≠ 0 := by omega
  cases ht with
  | mk type load tab =>
    cases type <;> simp [insert_te, alloc_te, dupval, h0, addNew]

/-! ## The claims on the invariants, the hash and `delete_te` -/

/-- C14 (load invariant): on every reachable table the `load` field equals the
number of entries over all chains; and every `resize` of a table whose load
counts its entries and whose keys are distinct, into `n >= 1` buckets that hold
them below the growth threshold, returns 0 with a table of the same load, which
again counts its entries. -/
theorem C14_load_counts_entries (ht : hashtable_t V) (hr : Reachable ht) :
    ht.load = (entries ht).length ∧
      ∀ (t : hashtable_t V) (n : Nat), (keys t).Nodup → t.load = (entries t).length →
        1 ≤ n → 4 * t.load ≤ 3 * n →
        ∃ t1, (∀ fuel, resize (ht_insert (fuel + 1)) t n = Outcome.ok (0, t1)) ∧
          t1.load = t.load ∧ t1.load = (entries t1).length := by
  refine ⟨(good_of_reachable hr).inv.load_eq, fun t n hnd hl hn hb => ?_⟩
  refine ⟨addAll (entries t) (ht_create n t.type),
    fun fuel => (resize_eq_of_counts fuel hnd hl hn hb).1, ?_, ?_⟩
  · exact (resize_eq_of_counts 0 hnd hl hn hb).2.1
  · exact (resize_eq_of_counts 0 hnd hl hn hb).2.2

/-- C14 at the table of "a", "b", "c" in 4 buckets, whose load is 3. -/
theorem C14_load_counts_entries_witness :
    Reachable scenario_abc ∧ scenario_abc.load = (entries scenario_abc).length ∧
      ∀ (t : hashtable_t Int) (n : Nat), (keys t).Nodup → t.load = (entries t).length →
        1 ≤ n → 4 * t.load ≤ 3 * n →
        ∃ t1, (∀ fuel, resize (ht_insert (fuel + 1)) t n = Outcome.ok (0, t1)) ∧
          t1.load = t.load ∧ t1.load = (entries t1).length :=
  ⟨reachable_abc, C14_load_counts_entries scenario_abc reachable_abc⟩

/-- C15 (key uniqueness): on every reachable table the keys of all entries, over
all buckets, are pairwise different. -/
theorem C15_keys_unique (ht : hashtable_t V) (hr : Reachable ht) : (keys ht).Nodup :=
  (good_of_reachable hr).inv.nodup

/-- C15 at the table whose bucket 1 holds two entries. -/
theorem C15_keys_unique_witness :
    Reachable scenario_abi8 ∧ (keys scenario_abi8).Nodup :=
  ⟨reachable_abi8, C15_keys_unique scenario_abi8 reachable_abi8⟩

/-- C16 (bucket placement): on every reachable table, every entry of the chain of
bucket `i` has `hash(key) mod capacity = i`, for the current capacity. -/
theorem C16_bucket_placement (ht : hashtable_t V) (hr : Reachable ht) :
    ∀ (i : Nat) (chain : List (tableentry_t V)), ht.tab[i]? = some chain →
      ∀ te ∈ chain, hash te.key % ht.size = i := by
  intro i chain hc te hte
  apply (good_of_reachable hr).inv.placed i te
  rw [List.getD_eq_getElem?_getD, hc]
  exact hte

/-- C16 at the table of "a", "b", "i" in 8 buckets. -/
theorem C16_bucket_placement_witness :
    Reachable scenario_abi8 ∧
      ∀ (i : Nat) (chain : List (tableentry_t Int)), scenario_abi8.tab[i]? = some chain →
        ∀ te ∈ chain, hash te.key % scenario_abi8.size = i :=
  ⟨reachable_abi8, C16_bucket_placement scenario_abi8 reachable_abi8⟩

/-- C17 (hash): for every key `s`, `hash(s)` is the base-31 polynomial of its
bytes modulo `2 ^ 32`, it is the left fold of `acc := (b + 31 * acc) mod 2 ^ 32`
from 0, and the hash of the empty key is 0; and on a table with a bucket,
`lookup` walks the chain of bucket `hash(s) mod capacity`, `insert_te` puts the
new entry at the head of that bucket, and `delete_te` works on that bucket and
no other: it leaves every other bucket as it was, it is undefined when that
bucket is empty, it returns 0 with the first entry of key `s` of that bucket
unlinked when there is one, and it returns -1 with the table unchanged when that
bucket is not empty and holds no entry of key `s`. -/
theorem C17_hash_polynomial (s : Key) (ht : hashtable_t V) (v : V) (hs : 1 ≤ ht.size) :
    ((hash s : Nat) : Int) = hash_poly s % (2 ^ 32 : Int) ∧
      hash s = s.foldl
        (fun (acc : Nat) (b : Int) => ((b + 31 * (acc : Int)) % (2 ^ 32 : Int)).toNat) 0 ∧
      hash [] = 0 ∧
      lookup ht s = Outcome.ok (lookup_chain s (ht.tab.getD (hash s % ht.size) [])) ∧
      (∃ ht1, insert_te ht s v = Outcome.ok (0, ht1) ∧
        ht1.tab = ht.tab.set (hash s % ht.size)
          ({ key := s, val := v } :: ht.tab.getD (hash s % ht.size) [])) ∧
      (∀ r ht1, delete_te ht s = Outcome.ok (r, ht1) →
        ∀ j, j ≠ hash s % ht.size → ht1.tab.getD j [] = ht.tab.getD j []) ∧
      (ht.tab.getD (hash s % ht.size) [] = [] → delete_te ht s = Outcome.undefined) ∧
      (∀ pre te post, ht.tab.getD (hash s % ht.size) [] = pre ++ te :: post →
        te.key = s → (∀ e ∈ pre, e.key ≠ s) →
        delete_te ht s = Outcome.ok
          (0, { type := ht.type, load := ht.load, tab := ht.tab.set (hash s % ht.size) (pre ++ post) })) ∧
      (ht.tab.getD (hash s % ht.size) [] ≠ [] →
        (∀ e ∈ ht.tab.getD (hash s % ht.size) [], e.key ≠ s) →
        delete_te ht s = Outcome.ok (-1, ht)) := by
  refine ⟨hash_eq_poly s, rfl, rfl, lookup_eq_find hs s, ⟨_, insert_te_eq ht s v hs, rfl⟩,
    fun r ht1 h j hj => delete_te_other_buckets ht s r ht1 h j hj,
    delete_te_empty ht s, ?_, delete_te_not_found ht s hs⟩
  intro pre te post hb hk hpre
  obtain ⟨h1, h2⟩ := lookup_chain_append s pre post te hk hpre
  have hf : find ht s = some te := by rw [find, hb]; exact h1
  rw [delete_te_eq hs hf]
  simp only [dropKey, hb, h2]

/-- C17 at the key "ab", whose hash is 97 * 31 + 98, and at the key "a" in the
table of "a", "b", "c": bucket 1 holds the one entry of "a" and `delete_te`
returns 0 with that bucket emptied. -/
theorem C17_hash_polynomial_witness :
    1 ≤ scenario_abc.size ∧ hash [97, 98] = 3105 ∧
      ((hash [97, 98] : Nat) : Int) = hash_poly [97, 98] % (2 ^ 32 : Int) ∧
      scenario_abc.tab.getD (hash key_a % scenario_abc.size) [] = [] ++ ⟨key_a, 1⟩ :: [] ∧
      delete_te scenario_abc key_a = Outcome.ok
        (0, { type := scenario_abc.type, load := scenario_abc.load,
              tab := scenario_abc.tab.set (hash key_a % scenario_abc.size) ([] ++ []) }) := by
  have h := C17_hash_polynomial [97, 98] scenario_abc 0 (by decide)
  have h2 := C17_hash_polynomial key_a scenario_abc 0 (by decide)
  exact ⟨by decide, by decide, h.1, by decide,
    h2.2.2.2.2.2.2.2.1 [] ⟨key_a, 1⟩ [] (by decide) rfl (by simp)⟩

/-- C19 (`delete_te` under `ht_delete`): on every table with at least one bucket
whose entries all sit in the bucket of their hash, `ht_delete` of a key that no
entry holds returns -1 without reaching `delete_te`; and for a key that is
present its bucket is not empty, the chain is `pre ++ te :: post` with `te` the
first entry of key `k`, and `delete_te` returns 0 (so `prev` was assigned when
the match is not the head) with the chain replaced by `pre ++ post`. -/
theorem C19_delete_te_safe (ht : hashtable_t V) (hs : 1 ≤ ht.size)
    (hpl : ∀ i, ∀ te ∈ ht.tab.getD i [], hash te.key % ht.size = i) (k : Key) :
    (¬ present ht k → ∀ fuel, ht_delete fuel ht k = Outcome.ok (-1, ht)) ∧
      (present ht k → ∃ pre te post,
        ht.tab.getD (hash k % ht.size) [] = pre ++ te :: post ∧ te.key = k ∧
        (∀ e ∈ pre, e.key ≠ k) ∧
        delete_te ht k = Outcome.ok
          (0, { type := ht.type, load := ht.load, tab := ht.tab.set (hash k % ht.size) (pre ++ post) })) := by
  refine ⟨fun hp fuel => ht_delete_absent fuel hs (find_none_of_absent hp), fun hp => ?_⟩
  obtain ⟨te, hf⟩ := find_of_present_placed hpl hp
  obtain ⟨pre, post, h1, h2, h3⟩ := lookup_chain_split hf
  refine ⟨pre, te, post, h1, (lookup_chain_some hf).2, h2, ?_⟩
  rw [delete_te_eq hs hf]
  simp only [dropKey, h3]

/-- C19 at the table whose bucket 1 holds "i" then "a", for the key "a", which
is matched at the second position of its chain. -/
theorem C19_delete_te_safe_witness :
    1 ≤ scenario_abi8.size ∧
      (∀ i, ∀ te ∈ scenario_abi8.tab.getD i [], hash te.key % scenario_abi8.size = i) ∧
      present scenario_abi8 key_a ∧
      ∃ pre te post,
        scenario_abi8.tab.getD (hash key_a % scenario_abi8.size) [] = pre ++ te :: post ∧
        te.key = key_a ∧ (∀ e ∈ pre, e.key ≠ key_a) ∧
        delete_te scenario_abi8 key_a = Outcome.ok
          (0, { type := scenario_abi8.type, load := scenario_abi8.load,
                tab := scenario_abi8.tab.set (hash key_a % scenario_abi8.size) (pre ++ post) }) :=
  ⟨by decide, (good_of_reachable reachable_abi8).inv.placed, by decide,
    (C19_delete_te_safe scenario_abi8 (by decide)
      (good_of_reachable reachable_abi8).inv.placed key_a).2 (by decide)⟩

/-! ## Load factor from below, and consecutive resizes -/

theorem insert_result_present_shape {ht : hashtable_t V} {k : Key} (v : V)
    (hf : (find ht k).isSome) :
    (insert_result ht k v).load = ht.load ∧ (insert_result ht k v).size = ht.size := by
  rw [insert_result_present v hf]
  exact ⟨rfl, setVal_size ht k v⟩

/-- C11 as written fails: one `ht_insert` into a fresh table of 8 buckets
returns 0 and leaves capacity 8 > 1 with load 1 < 0.25 * 8. -/
theorem C11_lower_bound_counterexample :
    ht_insert 1 (ht_create 8 datatype_t.INTEGER) key_a (1 : Int)
        = Outcome.ok (0, scenario_a8) ∧
      1 < scenario_a8.size ∧ 4 * scenario_a8.load < scenario_a8.size := by
  decide

/-- C11, amended: the lower bound is kept only by the shrink check of
`ht_delete`, which halves once.  On every reachable table, `ht_insert` returns 0
and keeps `load >= 0.25 * capacity` when it held before the call; and
`ht_delete` of a present key returns 0 and either halves the capacity or leaves
the capacity and a load `>= 0.25 * capacity`. -/
theorem C11_lower_bound_amended (ht : hashtable_t V) (hr : Reachable ht) :
    (∀ k v, ht.size ≤ 4 * ht.load →
        ∃ ht1, (∀ fuel, ht_insert (fuel + 2) ht k v = Outcome.ok (0, ht1)) ∧
          ht1.size ≤ 4 * ht1.load) ∧
      (∀ k, present ht k →
        ∃ ht1, (∀ fuel, ht_delete (fuel + 1) ht k = Outcome.ok (0, ht1)) ∧
          (ht1.size = ht.size / 2 ∨ (ht1.size = ht.size ∧ ht1.size ≤ 4 * ht1.load))) := by
  have hG := good_of_reachable hr
  have hsz := hG.inv.size_pos
  constructor
  · intro k v hlow
    refine ⟨insert_result ht k v, fun fuel => ht_insert_eq fuel hG k v, ?_⟩
    by_cases hp : present ht k
    · obtain ⟨h1, h2⟩ := insert_result_present_shape v ((find_isSome_iff hG.inv k).2 hp)
      rw [h1, h2]; exact hlow
    · obtain ⟨h1, h2⟩ := insert_result_new_shape hG v hp
      rw [h1, h2]
      split <;> omega
  · intro k hp
    obtain ⟨te, hf⟩ := find_of_present hG.inv hp
    refine ⟨delete_result ht k, fun fuel => ht_delete_eq fuel hG hf, ?_⟩
    have h1 := delete_result_size hG hf
    have h2 := load_delete_result hG hf
    by_cases hb : 4 * (ht.load - 1) < ht.size
    · rw [if_pos hb] at h1; exact Or.inl h1
    · rw [if_neg hb] at h1
      exact Or.inr ⟨h1, by rw [h1]; omega⟩

/-- C11, amended, at the table of "a", "b" in 8 buckets, whose load is 0.25 * 8. -/
theorem C11_lower_bound_amended_witness :
    Reachable scenario_ab8 ∧ scenario_ab8.size ≤ 4 * scenario_ab8.load ∧
      (∃ ht1, (∀ fuel, ht_insert (fuel + 2) scenario_ab8 key_i 5 = Outcome.ok (0, ht1)) ∧
        ht1.size ≤ 4 * ht1.load) ∧
      present scenario_ab8 key_a ∧
      (∃ ht1, (∀ fuel, ht_delete (fuel + 1) scenario_ab8 key_a = Outcome.ok (0, ht1)) ∧
        (ht1.size = scenario_ab8.size / 2 ∨
          (ht1.size = scenario_ab8.size ∧ ht1.size ≤ 4 * ht1.load))) :=
  ⟨reachable_ab8, by decide,
    (C11_lower_bound_amended scenario_ab8 reachable_ab8).1 key_i 5 (by decide), by decide,
    (C11_lower_bound_amended scenario_ab8 reachable_ab8).2 key_a (by decide)⟩

/-- C20 as written fails at capacity 1: the insert of "a" into a fresh table of
one bucket doubles it to 2, and the delete of "a" that follows halves it to 1. -/
theorem C20_no_thrashing_counterexample :
    Reachable (ht_create 1 datatype_t.INTEGER : hashtable_t Int) ∧
      ¬ present (ht_create 1 datatype_t.INTEGER : hashtable_t Int) key_a ∧
      ht_insert 2 (ht_create 1 datatype_t.INTEGER) key_a (1 : Int)
        = Outcome.ok (0, scenario_a2) ∧
      scenario_a2.size = 2 * (ht_create 1 datatype_t.INTEGER : hashtable_t Int).size ∧
      present scenario_a2 key_a ∧
      ht_delete 1 scenario_a2 key_a = Outcome.ok (0, ht_create 1 datatype_t.INTEGER) ∧
      (ht_create 1 datatype_t.INTEGER : hashtable_t Int).size = scenario_a2.size / 2 :=
  ⟨Reachable.create 1 datatype_t.INTEGER (by decide), by decide, by decide, by decide,
    by decide, by decide, by decide⟩

/-- C20, amended: on every reachable table of capacity `c`, if `c` is not 1 and
an `ht_insert` of a new key doubles the capacity, then an `ht_delete` of any
present key right after it leaves the capacity; and if `c` is none of 2, 3, 5
and an `ht_delete` of a present key halves the capacity, then an `ht_insert` of
any new key right after it leaves the capacity. -/
theorem C20_no_thrashing_amended (ht : hashtable_t V) (hr : Reachable ht) :
    (ht.size ≠ 1 → ∀ k v, ¬ present ht k → 4 * (ht.load + 1) > 3 * ht.size →
        ∃ ht1, (∀ fuel, ht_insert (fuel + 2) ht k v = Outcome.ok (0, ht1)) ∧
          ht1.size = 2 * ht.size ∧
          ∀ k2, present ht1 k2 →
            ∃ ht2, (∀ fuel, ht_delete (fuel + 1) ht1 k2 = Outcome.ok (0, ht2)) ∧
              ht2.size = ht1.size) ∧
      (ht.size ≠ 2 ∧ ht.size ≠ 3 ∧ ht.size ≠ 5 → ∀ k, present ht k →
        4 * (ht.load - 1) < ht.size →
        ∃ ht1, (∀ fuel, ht_delete (fuel + 1) ht k = Outcome.ok (0, ht1)) ∧
          ht1.size = ht.size / 2 ∧
          ∀ k2 (v : V), ¬ present ht1 k2 →
            ∃ ht2, (∀ fuel, ht_insert (fuel + 2) ht1 k2 v = Outcome.ok (0, ht2)) ∧
              ht2.size = ht1.size) := by
  have hG := good_of_reachable hr
  have hsz := hG.inv.size_pos
  have hbd := hG.bound
  constructor
  · intro hc k v hp hgrow
    have hG1 := good_insert_result hG k v
    obtain ⟨h1, h2⟩ := insert_result_new_shape hG v hp
    rw [if_pos hgrow] at h2
    refine ⟨insert_result ht k v, fun fuel => ht_insert_eq fuel hG k v, h2, fun k2 hp2 => ?_⟩
    obtain ⟨te, hf⟩ := find_of_present hG1.inv hp2
    refine ⟨_, fun fuel => ht_delete_eq fuel hG1 hf, ?_⟩
    rw [delete_result_size hG1 hf, h1, h2, if_neg (by omega)]
  · intro hc k hp hshrink
    obtain ⟨te, hf⟩ := find_of_present hG.inv hp
    have hG1 := good_delete_result hG hf
    have h1 := delete_result_size hG hf
    have h2 := load_delete_result hG hf
    rw [if_pos hshrink] at h1
    refine ⟨delete_result ht k, fun fuel => ht_delete_eq fuel hG hf, h1, fun k2 v hp2 => ?_⟩
    refine ⟨_, fun fuel => ht_insert_eq fuel hG1 k2 v, ?_⟩
    rw [(insert_result_new_shape hG1 v hp2).2, h1, if_neg (by omega)]

/-- C20, amended, at capacity 4 holding three keys: the insert of "d" doubles
the table to 8, and the delete of "a" after it leaves 8. -/
theorem C20_no_thrashing_amended_witness :
    Reachable scenario_abc ∧ scenario_abc.size ≠ 1 ∧ ¬ present scenario_abc key_d ∧
      4 * (scenario_abc.load + 1) > 3 * scenario_abc.size ∧
      ∃ ht1, (∀ fuel, ht_insert (fuel + 2) scenario_abc key_d 4 = Outcome.ok (0, ht1)) ∧
        ht1.size = 2 * scenario_abc.size ∧
        ∀ k2, present ht1 k2 →
          ∃ ht2, (∀ fuel, ht_delete (fuel + 1) ht1 k2 = Outcome.ok (0, ht2)) ∧
            ht2.size = ht1.size :=
  ⟨reachable_abc, by decide, by decide, by decide,
    (C20_no_thrashing_amended scenario_abc reachable_abc).1 (by decide) key_d 4 (by decide)
      (by decide)⟩

/-! ## Chain order -/

theorem chrono_reachable {ht : hashtable_t V} {ord recent : List Key}
    (h : Chrono ht ord recent) : Reachable ht := by
  induction h with
  | create n kind hn => exact Reachable.create n kind hn
  | insert_new fuel k v r _ _ h ih => exact Reachable.insert fuel k v r ih h
  | insert_old fuel k v r _ _ h ih => exact Reachable.insert fuel k v r ih h
  | delete_present fuel k r _ _ h ih => exact Reachable.delete fuel k r ih h
  | delete_absent fuel k r _ _ h ih => exact Reachable.delete fuel k r ih h

theorem unlink_keys (k : Key) (c : List (tableentry_t V)) :
    (unlink k c).map tableentry_t.key = (c.map tableentry_t.key).erase k := by
  induction c with
  | nil => simp [unlink]
  | cons a next ih =>
    by_cases ha : a.key = k
    · simp [unlink, ha]
    · simp [unlink, ha, ih, List.erase_cons_tail]

theorem addNew_chain_keys (ht : hashtable_t V) (k : Key) (v : V) (i : Nat) :
    ((addNew ht k v).tab.getD i []).map tableentry_t.key =
        (ht.tab.getD i []).map tableentry_t.key ∨
      ((addNew ht k v).tab.getD i []).map tableentry_t.key =
        k :: (ht.tab.getD i []).map tableentry_t.key := by
  simp only [addNew, getD_set_tab]
  by_cases hij : hash k % ht.size = i ∧ hash k % ht.size < ht.tab.length
  · rw [if_pos hij, hij.1]; exact Or.inr rfl
  · rw [if_neg hij]; exact Or.inl rfl

theorem setVal_chain_keys (ht : hashtable_t V) (k : Key) (v : V) (i : Nat) :
    ((setVal ht k v).tab.getD i []).map tableentry_t.key =
      (ht.tab.getD i []).map tableentry_t.key := by
  simp only [setVal, getD_set_tab]
  by_cases hij : hash k % ht.size = i ∧ hash k % ht.size < ht.tab.length
  · rw [if_pos hij, replace_val_keys, hij.1]
  · rw [if_neg hij]

theorem dropKey_chain_keys {ht : hashtable_t V} (hI : Inv ht) (k : Key) (i : Nat) :
    ((dropKey ht k).tab.getD i []).map tableentry_t.key =
      ((ht.tab.getD i []).map tableentry_t.key).erase k := by
  simp only [dropKey, getD_set_tab]
  by_cases hij : hash k % ht.size = i ∧ hash k % ht.size < ht.tab.length
  · rw [if_pos hij, unlink_keys, hij.1]
  · rw [if_neg hij]
    have hk : k ∉ (ht.tab.getD i []).map tableentry_t.key := by
      intro hm
      obtain ⟨te, hte, rfl⟩ := List.mem_map.1 hm
      have hp := hI.placed i te hte
      exact hij ⟨hp, bucket_lt ht te.key hI.size_pos⟩
    rw [List.erase_of_not_mem hk]

theorem insert_result_same_size {ht : hashtable_t V} (hG : Good ht) {k : Key} (v : V)
    (hp : ¬ present ht k) (hs : (insert_result ht k v).size = ht.size) :
    insert_result ht k v = addNew ht k v := by
  have hf := find_none_of_absent hp
  have hsz := hG.inv.size_pos
  by_cases hb : 3 * ht.size < 4 * (ht.load + 1)
  · have h2 := (insert_result_new_shape hG v hp).2
    rw [if_pos hb] at h2
    omega
  · exact insert_result_new_noresize v hf (by omega)

theorem delete_result_same_size {ht : hashtable_t V} (hG : Good ht) {k : Key}
    (hs : (delete_result ht k).size = ht.size) : delete_result ht k = dropKey ht k := by
  have hsz := hG.inv.size_pos
  by_cases hb : 4 * (dropKey ht k).load < ht.size
  · have h2 := resized_size (dropKey ht k) (ht.size / 2)
    rw [dropKey_type, ← delete_result_resize hb] at h2
    omega
  · exact delete_result_noresize (by omega)

/-- The order of one chain against a history: the keys of `recent` that the
chain holds come first, in the order of `recent`, and the older keys follow. -/
theorem chain_split_nil (c : List Key) :
    ∃ new old, c = new ++ old ∧ List.Sublist new [] ∧ ∀ x ∈ old, x ∉ ([] : List Key) :=
  ⟨[], c, rfl, List.Sublist.refl _, fun _ _ => List.not_mem_nil _⟩

theorem chain_split_erase (k : Key) {c recent : List Key}
    (h : ∃ new old, c = new ++ old ∧ List.Sublist new recent ∧ ∀ x ∈ old, x ∉ recent) :
    ∃ new old, c.erase k = new ++ old ∧ List.Sublist new (recent.erase k) ∧
      ∀ x ∈ old, x ∉ recent.erase k := by
  obtain ⟨new, old, hc, hs, ho⟩ := h
  subst hc
  by_cases hk : k ∈ new
  · refine ⟨new.erase k, old, ?_, hs.erase k, fun x hx hm => ho x hx (List.mem_of_mem_erase hm)⟩
    rw [List.erase_append_left _ hk]
  · refine ⟨new, old.erase k, ?_, ?_, fun x hx hm =>
      ho x (List.mem_of_mem_erase hx) (List.mem_of_mem_erase hm)⟩
    · rw [List.erase_append_right _ hk]
    · have := hs.erase k
      rwa [List.erase_of_not_mem hk] at this

theorem recent_erase_split (k : Key) {ord recent : List Key}
    (h : ∃ rest, ord = recent ++ rest) : ∃ rest, ord.erase k = recent.erase k ++ rest := by
  obtain ⟨rest, rfl⟩ := h
  by_cases hk : k ∈ recent
  · exact ⟨rest, List.erase_append_left _ hk⟩
  · exact ⟨rest.erase k, by rw [List.erase_append_right _ hk, List.erase_of_not_mem hk]⟩

theorem chrono_chain_order {ht : hashtable_t V} {ord recent : List Key}
    (h : Chrono ht ord recent) :
    (∃ rest, ord = recent ++ rest) ∧
      ∀ i, ∃ new old, (ht.tab.getD i []).map tableentry_t.key = new ++ old ∧
        List.Sublist new recent ∧ ∀ x ∈ old, x ∉ recent := by
  induction h with
  | create n kind hn =>
    refine ⟨⟨[], rfl⟩, fun i => chain_split_nil _⟩
  | @insert_new ht0 ht1 ord0 rec0 fuel k v r hc hk h ih =>
    have hG := good_of_reachable (chrono_reachable hc)
    have h1 := (good_of_insert hG h).2
    by_cases hs : ht1.size = ht0.size
    · rw [if_pos hs]
      obtain ⟨rest, hrest⟩ := ih.1
      refine ⟨⟨rest, by rw [hrest]; rfl⟩, fun i => ?_⟩
      obtain ⟨new, old, hc1, hn1, ho1⟩ := ih.2 i
      have hko : ∀ x ∈ old, x ≠ k := by
        intro x hx hxk
        apply hk
        have : x ∈ (ht0.tab.getD i []).map tableentry_t.key := by
          rw [hc1]; exact List.mem_append_right _ hx
        exact hxk ▸ (getD_keys_sublist ht0.tab i).subset this
      have hold : ∀ x ∈ old, x ∉ k :: rec0 := by
        intro x hx hm
        rcases List.mem_cons.1 hm with hxk | hm1
        · exact hko x hx hxk
        · exact ho1 x hx hm1
      rw [h1] at hs ⊢
      rw [insert_result_same_size hG v hk hs]
      rcases addNew_chain_keys ht0 k v i with he | he
      · exact ⟨new, old, by rw [he, hc1], hn1.trans (List.sublist_cons_self _ _), hold⟩
      · exact ⟨k :: new, old, by rw [he, hc1]; rfl, hn1.cons₂ k, hold⟩
    · rw [if_neg hs]
      exact ⟨⟨_, rfl⟩, fun i => chain_split_nil _⟩
  | @insert_old ht0 ht1 ord0 rec0 fuel k v r hc hk h ih =>
    have hG := good_of_reachable (chrono_reachable hc)
    have h1 := (good_of_insert hG h).2
    have h2 := insert_result_present v ((find_isSome_iff hG.inv k).2 hk)
    have hs : ht1.size = ht0.size := by rw [h1, h2, setVal_size]
    rw [if_pos hs]
    refine ⟨ih.1, fun i => ?_⟩
    rw [h1, h2, setVal_chain_keys]
    exact ih.2 i
  | @delete_present ht0 ht1 ord0 rec0 fuel k r hc hk h ih =>
    have hG := good_of_reachable (chrono_reachable hc)
    obtain ⟨te, hf⟩ := find_of_present hG.inv hk
    by_cases hs : ht1.size = ht0.size
    · rw [if_pos hs]
      refine ⟨recent_erase_split k ih.1, fun i => ?_⟩
      rcases good_of_delete hG h with ⟨h0, _, _⟩ | ⟨_, _, h1⟩
      · rw [hf] at h0; cases h0
      · rw [h1] at hs ⊢
        rw [delete_result_same_size hG hs, dropKey_chain_keys hG.inv]
        exact chain_split_erase k (ih.2 i)
    · rw [if_neg hs]
      exact ⟨⟨_, rfl⟩, fun i => chain_split_nil _⟩
  | @delete_absent ht0 ht1 ord0 rec0 fuel k r hc hk h ih =>
    have hG := good_of_reachable (chrono_reachable hc)
    rcases good_of_delete hG h with ⟨_, _, h1⟩ | ⟨h0, _, _⟩
    · rw [h1, if_pos rfl]; exact ih
    · exact absurd ((find_isSome_iff hG.inv k).1 h0) hk

theorem chrono_aib : Chrono scenario_aib [key_b, key_i, key_a] [key_b, key_i, key_a] := by
  have h0 : Chrono (ht_create 4 datatype_t.INTEGER : hashtable_t Int) [] [] :=
    Chrono.create 4 datatype_t.INTEGER (by decide)
  have h1 : Chrono scenario_a [key_a] [key_a] :=
    Chrono.insert_new 1 key_a 1 0 h0 (by decide) (by decide)
  have h2 : Chrono scenario_ai [key_i, key_a] [key_i, key_a] :=
    Chrono.insert_new 1 key_i 5 0 h1 (by decide) (by decide)
  exact Chrono.insert_new 1 key_b 2 0 h2 (by decide) (by decide)

theorem chrono_aibc8 : Chrono scenario_aibc8 [key_c, key_b, key_i, key_a] [] :=
  Chrono.insert_new 2 key_c 3 0 chrono_aib (by decide) (by decide)

theorem chrono_aibcq8 :
    Chrono scenario_aibcq8 [key_q, key_c, key_b, key_i, key_a] [key_q] :=
  Chrono.insert_new 1 key_q 9 0 chrono_aibc8 (by decide) (by decide)

/-- C18 as written fails across a resize: after the inserts of "a", "i", "b",
"c" into 4 buckets, in this order, the fourth insert doubles the table and
bucket 1 holds "a" at its head, before "i", though "i" was inserted after "a". -/
theorem C18_chain_order_counterexample :
    Chrono scenario_aibc8 [key_c, key_b, key_i, key_a] [] ∧
      scenario_aibc8.tab.getD 1 [] = [⟨key_a, 1⟩, ⟨key_i, 5⟩] ∧
      ¬ List.Sublist ((scenario_aibc8.tab.getD 1 []).map tableentry_t.key)
        [key_c, key_b, key_i, key_a] :=
  ⟨Chrono.insert_new 2 key_c 3 0 chrono_aib (by decide) (by decide), by decide, by decide⟩

/-- C18, amended: for every table reached from `ht_create(n, kind)`, `n >= 1`, by
calls of `ht_insert` and `ht_delete`, with `ord` the keys present, most recently
(first) inserted first, and `recent` those first inserted after the last call
that changed the capacity: `recent` is the front part of `ord`, and the keys of
every chain, head first, are keys of `recent` in the order of `recent`, followed
by keys that are not in `recent`.  So of two entries of one bucket the more
recently inserted is nearer the head whenever its key was first inserted after
the last change of capacity. -/
theorem C18_chain_order_amended (ht : hashtable_t V) (ord recent : List Key)
    (h : Chrono ht ord recent) :
    (∃ rest, ord = recent ++ rest) ∧
      ∀ i, ∃ new old, (ht.tab.getD i []).map tableentry_t.key = new ++ old ∧
        List.Sublist new recent ∧ ∀ x ∈ old, x ∉ recent :=
  chrono_chain_order h

/-- C18, amended, at the doubled table of "a", "i", "b", "c" after the insert of
"q": bucket 1 holds "q", the only key inserted since the doubling, before "a"
and "i". -/
theorem C18_chain_order_amended_witness :
    Chrono scenario_aibcq8 [key_q, key_c, key_b, key_i, key_a] [key_q] ∧
      scenario_aibcq8.tab.getD 1 [] = [⟨key_q, 9⟩, ⟨key_a, 1⟩, ⟨key_i, 5⟩] ∧
      (∃ rest, [key_q, key_c, key_b, key_i, key_a] = [key_q] ++ rest) ∧
      ∀ i, ∃ new old, (scenario_aibcq8.tab.getD i []).map tableentry_t.key = new ++ old ∧
        List.Sublist new [key_q] ∧ ∀ x ∈ old, x ∉ [key_q] :=
  ⟨chrono_aibcq8, by decide,
    C18_chain_order_amended scenario_aibcq8 [key_q, key_c, key_b, key_i, key_a] [key_q]
      chrono_aibcq8⟩

/-! ## The word counter of `main.c` -/

set_option maxRecDepth 100000 in
theorem stop_words_length : stop_words.length = 318 := by
  decide

set_option maxRecDepth 100000 in
theorem is_stop_word_loop_succ (w : Key) (fuel : Nat) :
    ∀ (lo hi : Nat) (r : Outcome Int), is_stop_word_loop w fuel lo hi = r →
      r ≠ Outcome.outOfFuel → is_stop_word_loop w (fuel + 1) lo hi = r := by
  induction fuel with
  | zero => intro lo hi r h hr; exact absurd h.symm hr
  | succ n ih =>
    intro lo hi r h hr
    rw [is_stop_word_loop] at h ⊢
    by_cases hle : lo ≤ hi
    · rw [if_pos hle] at h ⊢
      simp only at h ⊢
      cases hm : stop_words[((lo + hi) % 2 ^ 64) / 2]? with
      | none => rw [hm] at h; exact h
      | some sw =>
        rw [hm] at h
        simp only at h ⊢
        by_cases h1 : strcmp w sw > 0
        · rw [if_pos h1] at h ⊢; exact ih _ _ r h hr
        · rw [if_neg h1] at h ⊢
          by_cases h2 : strcmp w sw < 0
          · rw [if_pos h2] at h ⊢; exact ih _ _ r h hr
          · rw [if_neg h2] at h ⊢; exact h
    · rw [if_neg hle] at h ⊢; exact h

theorem is_stop_word_more_fuel (w : Key) (fuel extra : Nat) (r : Outcome Int)
    (h : is_stop_word fuel w = r) (hr : r ≠ Outcome.outOfFuel) :
    is_stop_word (fuel + extra) w = r := by
  induction extra with
  | zero => exact h
  | succ n ih => exact is_stop_word_loop_succ w (fuel + n) _ _ r ih hr

set_option maxRecDepth 100000 in
theorem is_stop_word_a : is_stop_word 10 (cstr "a") = Outcome.ok 0 := by
  decide

set_option maxRecDepth 100000 in
theorem is_stop_word_the : is_stop_word 10 (cstr "the") = Outcome.undefined := by
  decide

set_option maxRecDepth 100000 in
theorem stop_words_mem_a : cstr "a" ∈ stop_words := by
  decide

set_option maxRecDepth 100000 in
theorem stop_words_mem_the : cstr "the" ∈ stop_words := by
  decide

/-- C12 is not met by the code: the two branches of the search move the wrong
bound.  For the stop word "a" every read is inside the array and the result is
0, with any fuel of at least 10; for the stop word "the" the search walks down
to `mid = 0`, wraps `hi = mid - 1` to `SIZE_MAX` and reads `stop_words` far
outside the array. -/
theorem C12_is_stop_word_misses :
    cstr "a" ∈ stop_words ∧
      (∀ extra, is_stop_word (10 + extra) (cstr "a") = Outcome.ok 0) ∧
      cstr "the" ∈ stop_words ∧
      (∀ extra, is_stop_word (10 + extra) (cstr "the") = Outcome.undefined) :=
  ⟨stop_words_mem_a,
    fun extra => is_stop_word_more_fuel _ 10 extra _ is_stop_word_a (by simp),
    stop_words_mem_the,
    fun extra => is_stop_word_more_fuel _ 10 extra _ is_stop_word_the (by simp)⟩

set_option maxRecDepth 100000 in
/-- C13 is not met by the code: `index_word` never asks `is_stop_word`.  On the
text "the", `count_words` returns a table in which the stop word "the" is a key
with count 1; on "The the cat" its count is 2. -/
theorem C13_stop_word_is_indexed :
    cstr "the" ∈ stop_words ∧
      count_words 1 (cstr "the") = Outcome.ok (Held.table
        (addNew (ht_create HASHSIZE datatype_t.INTEGER) (cstr "the") 1)) ∧
      ht_get (addNew (ht_create HASHSIZE datatype_t.INTEGER) (cstr "the") 1) (cstr "the")
        = Outcome.ok (some 1) ∧
      count_words 1 (cstr "The the cat") = Outcome.ok (Held.table
        (addNew (setVal (addNew (ht_create HASHSIZE datatype_t.INTEGER) (cstr "the") 1)
          (cstr "the") 2) (cstr "cat") 1)) ∧
      ht_get (addNew (setVal (addNew (ht_create HASHSIZE datatype_t.INTEGER) (cstr "the") 1)
          (cstr "the") 2) (cstr "cat") 1) (cstr "the") = Outcome.ok (some 2) :=
  ⟨by decide, by decide, by decide, by decide, by decide⟩

end CSummarizer
